import Mathlib

/-
A shallow embedding of the merkledag traversal engine
(ipld/merkledag/traverse/traverse.go) and proofs about it.

Modelling choices:
* A content identifier (the KeyString of a CID) is a `String`.
* A `Node` carries its cid and its ordered list of outgoing links; a
  `Link` carries the cid it resolves through.  The `NodeGetter` (the
  `DAG` option) is a function from cids to `Except ε Node`, where `ε`
  is the type of caller-domain error values (visitor errors, retrieval
  errors, recovery-function errors).
* Go's nullable `error` results become `Option ε` (`none` = nil).
* The engine's own distinguished error (the BFS dequeue inconsistency
  `errors.New`) cannot be a caller error value, so the overall result
  of a traversal is `Option (TravErr ε)` where `TravErr.user e` embeds
  a caller-domain error and `TravErr.internal` is the engine's own
  error value.
* The mutable `seen` map of the Go `traversal` struct becomes an
  explicitly threaded `List Cid` (insertion is cons; lookup is
  `List.contains`).
* Each traversal function additionally produces the chronological list
  of observable events: every call of the retrieval capability
  (`Event.fetch`), every insertion into the seen set (`Event.mark`),
  and every invocation of the visitor (`Event.visit`).
* Go recursion/loops are fuel-indexed; `none` means the fuel ran out,
  `some` is the faithful result of the Go code.
-/

abbrev Cid := String

structure Link where
  cid : Cid
deriving DecidableEq, Repr

structure Node where
  cid : Cid
  links : List Link
deriving DecidableEq, Repr

/-- `State` from traverse.go: the pair handed to the visitor.  In Go the
`Node` field is a nullable interface; inside the BFS queue we model that
nullability explicitly (see `bfsLoop`), while a `State` reaching the
visitor always holds a real node. -/
structure State where
  node : Node
  depth : Nat
deriving DecidableEq, Repr

/-- Observable events of one traversal: a call to the retrieval
capability on a link's cid, an insertion of a cid into the seen set,
and an invocation of the visitor on a state. -/
inductive Event where
  | fetch (c : Cid)
  | mark (c : Cid)
  | visit (s : State)
deriving DecidableEq, Repr

/-- The error universe of a traversal result: either an error value of
the caller's domain (visitor, retrieval, or recovery-function error,
propagated by the engine), or the engine's own internal-consistency
error created by `errors.New` in `bfsTraverse`. -/
inductive TravErr (ε : Type) where
  | user (e : ε)
  | internal
deriving DecidableEq, Repr

/-- `Order` from traverse.go is a Go `int`. -/
abbrev Order := Int

def DFSPre : Order := 0
def DFSPost : Order := 1
def BFS : Order := 2

/-- `Options` from traverse.go.  `dag` is the NodeGetter, `func` the
visitor, `errFunc` the optional recovery function (`none` = nil). -/
structure Options (ε : Type) where
  dag : Cid → Except ε Node
  order : Order
  func : State → Option ε
  errFunc : Option (ε → Option ε)
  skipDuplicates : Bool

/-- `traversal.shouldSkip`: result is `((skip, err), seen after, events)`.
The Go function never returns a non-nil error; the slot is kept to
mirror the code. -/
def shouldSkip (o : Options ε) (seen : List Cid) (n : Node) :
    (Bool × Option ε) × List Cid × List Event :=
  if o.skipDuplicates then
    if seen.contains n.cid then ((true, none), seen, [])
    else ((false, none), n.cid :: seen, [Event.mark n.cid])
  else ((false, none), seen, [])

/-- `traversal.callFunc`: invoke the visitor, recording the event. -/
def callFunc (o : Options ε) (next : State) : Option ε × List Event :=
  (o.func next, [Event.visit next])

/-- `traversal.getNode`: resolve a link.  Result is
`((node, err), seen after, events)`; a `none` node with `none` error
means "skip".  Mirrors the Go code: the fetch always happens first,
then the duplicate check, then (on a fetch error) the recovery
function. -/
def getNode (o : Options ε) (seen : List Cid) (l : Link) :
    (Option Node × Option ε) × List Cid × List Event :=
  let inner : (Option Node × Option ε) × List Cid × List Event :=
    match o.dag l.cid with
    | Except.error e => ((none, some e), seen, [Event.fetch l.cid])
    | Except.ok next =>
      match shouldSkip o seen next with
      | ((skip, err), seen1, evs1) =>
        ((if skip then none else some next, err), seen1, Event.fetch l.cid :: evs1)
  match inner, o.errFunc with
  | ((_, some e), seen1, evs1), some ef => ((none, ef e), seen1, evs1)
  | r, _ => r

/-- The outcome of a traversal step that did not run out of fuel: the
events it produced, the seen set after it, and its Go result
(`none` = nil error). -/
structure Out (ε : Type) where
  evs : List Event
  seen : List Cid
  res : Option (TravErr ε)
deriving DecidableEq, Repr

/-- `dfsDescend`: loop over the links of the current node.  `rec` is the
`dfsFunc` parameter (`dfsPreTraverse` or `dfsPostTraverse` at one less
fuel); `d` is the depth of the current node. -/
def dfsDescend (rec : State → List Cid → Option (Out ε)) (o : Options ε) :
    List Link → Nat → List Cid → Option (Out ε)
  | [], _, seen => some ⟨[], seen, none⟩
  | l :: ls, d, seen =>
    match getNode o seen l with
    | ((node?, err), seen1, evs1) =>
      match err with
      | some e => some ⟨evs1, seen1, some (TravErr.user e)⟩
      | none =>
        match node? with
        | none =>
          match dfsDescend rec o ls d seen1 with
          | none => none
          | some out2 => some ⟨evs1 ++ out2.evs, out2.seen, out2.res⟩
        | some n =>
          match rec ⟨n, d + 1⟩ seen1 with
          | none => none
          | some out1 =>
            match out1.res with
            | some e => some ⟨evs1 ++ out1.evs, out1.seen, some e⟩
            | none =>
              match dfsDescend rec o ls d out1.seen with
              | none => none
              | some out2 => some ⟨evs1 ++ out1.evs ++ out2.evs, out2.seen, out2.res⟩

/-- `dfsPreTraverse`: visit, then descend. -/
def dfsPreTraverse (o : Options ε) : Nat → State → List Cid → Option (Out ε)
  | 0, _, _ => none
  | fuel + 1, s, seen =>
    match callFunc o s with
    | (some e, evs) => some ⟨evs, seen, some (TravErr.user e)⟩
    | (none, evs) =>
      match dfsDescend (dfsPreTraverse o fuel) o s.node.links s.depth seen with
      | none => none
      | some out => some ⟨evs ++ out.evs, out.seen, out.res⟩

/-- `dfsPostTraverse`: descend, then visit. -/
def dfsPostTraverse (o : Options ε) : Nat → State → List Cid → Option (Out ε)
  | 0, _, _ => none
  | fuel + 1, s, seen =>
    match dfsDescend (dfsPostTraverse o fuel) o s.node.links s.depth seen with
    | none => none
    | some out =>
      match out.res with
      | some e => some ⟨out.evs, out.seen, some e⟩
      | none =>
        match callFunc o s with
        | (r, evs2) => some ⟨out.evs ++ evs2, out.seen, r.map TravErr.user⟩

/-- The inner loop of `bfsTraverse` over the links of the dequeued node:
resolve each link and collect the states to push (at `d + 1`), or abort
on an unrecovered fetch error. -/
def bfsEnqueue (o : Options ε) (d : Nat) :
    List Link → List Cid → List Event × List Cid × Except ε (List (Option Node × Nat))
  | [], seen => ([], seen, Except.ok [])
  | l :: ls, seen =>
    match getNode o seen l with
    | ((node?, err), seen1, evs1) =>
      match err with
      | some e => (evs1, seen1, Except.error e)
      | none =>
        match node? with
        | none =>
          match bfsEnqueue o d ls seen1 with
          | (evs2, seen2, r) => (evs1 ++ evs2, seen2, r)
        | some n =>
          match bfsEnqueue o d ls seen1 with
          | (evs2, seen2, Except.error e) => (evs1 ++ evs2, seen2, Except.error e)
          | (evs2, seen2, Except.ok pushed) =>
            (evs1 ++ evs2, seen2, Except.ok ((some n, d + 1) :: pushed))

/-- The main loop of `bfsTraverse`.  The queue holds Go `State` values
whose `Node` field is a nullable interface, modelled as
`Option Node × Nat`; dequeuing a `none` node while the queue was
non-empty is the `errors.New` branch of the source. -/
def bfsLoop (o : Options ε) : Nat → List (Option Node × Nat) → List Cid → Option (Out ε)
  | 0, _, _ => none
  | _ + 1, [], seen => some ⟨[], seen, none⟩
  | fuel + 1, (node?, d) :: rest, seen =>
    match node? with
    | none => some ⟨[], seen, some TravErr.internal⟩
    | some n =>
      match callFunc o ⟨n, d⟩ with
      | (some e, evs) => some ⟨evs, seen, some (TravErr.user e)⟩
      | (none, evs) =>
        match bfsEnqueue o d n.links seen with
        | (evs2, seen2, Except.error e) => some ⟨evs ++ evs2, seen2, some (TravErr.user e)⟩
        | (evs2, seen2, Except.ok pushed) =>
          match bfsLoop o fuel (rest ++ pushed) seen2 with
          | none => none
          | some out => some ⟨evs ++ evs2 ++ out.evs, out.seen, out.res⟩

/-- `bfsTraverse`: the defensive duplicate check of the root, then the
queue loop seeded with the root. -/
def bfsTraverse (o : Options ε) (fuel : Nat) (root : State) (seen : List Cid) :
    Option (Out ε) :=
  match shouldSkip o seen root.node with
  | ((skip, err), seen1, evs1) =>
    if skip || err.isSome then some ⟨evs1, seen1, err.map TravErr.user⟩
    else
      match bfsLoop o fuel [(some root.node, root.depth)] seen1 with
      | none => none
      | some out => some ⟨evs1 ++ out.evs, out.seen, out.res⟩

/-- `Traverse`: dispatch on the order, starting from a fresh session
(empty seen set) at depth 0.  The `switch` of the source sends every
unrecognized order to `dfsPreTraverse`. -/
def Traverse (root : Node) (o : Options ε) (fuel : Nat) : Option (Out ε) :=
  if o.order = DFSPre then dfsPreTraverse o fuel ⟨root, 0⟩ []
  else if o.order = DFSPost then dfsPostTraverse o fuel ⟨root, 0⟩ []
  else if o.order = BFS then bfsTraverse o fuel ⟨root, 0⟩ []
  else dfsPreTraverse o fuel ⟨root, 0⟩ []

/-- The states passed to the visitor, in chronological order. -/
def visitStates (evs : List Event) : List State :=
  evs.filterMap fun e =>
    match e with
    | Event.visit s => some s
    | _ => none

/-- The cids passed to the visitor, in chronological order. -/
def visitCids (evs : List Event) : List Cid :=
  (visitStates evs).map fun s => s.node.cid

/-- How many times the visitor was invoked on a node with cid `c`. -/
def countV (c : Cid) (evs : List Event) : Nat :=
  (evs.filter fun e =>
    match e with
    | Event.visit s => s.node.cid == c
    | _ => false).length

/-- How many times cid `c` was inserted into the seen set. -/
def countM (c : Cid) (evs : List Event) : Nat :=
  (evs.filter fun e =>
    match e with
    | Event.mark c2 => c2 == c
    | _ => false).length

/-- Convenience constructor for example graphs. -/
def mkNode (c : Cid) (ls : List Cid) : Node :=
  ⟨c, ls.map Link.mk⟩

/-! ### Concrete example graphs -/

/-- The spec's running example: `R → A → C`, `R → B`. -/
def dagRABC : Cid → Except String Node := fun c =>
  if c = "A" then Except.ok (mkNode "A" ["C"])
  else if c = "B" then Except.ok (mkNode "B" [])
  else if c = "C" then Except.ok (mkNode "C" [])
  else Except.ok (mkNode c [])

def rootRABC : Node := mkNode "R" ["A", "B"]

def optsRABC (ord : Order) (skip : Bool) : Options String :=
  ⟨dagRABC, ord, fun _ => none, none, skip⟩

/-- A cyclic graph: `R → A → R`. -/
def dagCyc : Cid → Except String Node := fun c =>
  if c = "A" then Except.ok (mkNode "A" ["R"])
  else if c = "R" then Except.ok (mkNode "R" ["A"])
  else Except.ok (mkNode c [])

def rootCyc : Node := mkNode "R" ["A"]

def optsCyc (ord : Order) : Options String :=
  ⟨dagCyc, ord, fun _ => none, none, true⟩

/-- Shared sub-structure: the root links twice to the same child `A`. -/
def dagDup : Cid → Except String Node := fun c => Except.ok (mkNode c [])

def rootDup : Node := mkNode "R" ["A", "A"]

def optsDup : Options String := ⟨dagDup, DFSPre, fun _ => none, none, true⟩

/-! ### Congruence: the traversal only reads `dag`, `func`, `errFunc`,
`skipDuplicates` through `getNode`, `callFunc` and `shouldSkip`. -/

theorem shouldSkip_congr {ε₁ ε₂ : Type} (o₁ : Options ε₁) (o₂ : Options ε₂)
    (hskip : o₁.skipDuplicates = o₂.skipDuplicates) (seen : List Cid) (n : Node) :
    (shouldSkip o₁ seen n).1.1 = (shouldSkip o₂ seen n).1.1 ∧
      (shouldSkip o₁ seen n).2 = (shouldSkip o₂ seen n).2 := by
  cases hb : o₂.skipDuplicates <;> by_cases hc : n.cid ∈ seen <;>
    simp [shouldSkip, hskip, hb, hc]

theorem dfsDescend_congr {ε : Type} {rec₁ rec₂ : State → List Cid → Option (Out ε)}
    {o₁ o₂ : Options ε} (hrec : ∀ s sn, rec₁ s sn = rec₂ s sn)
    (hget : ∀ sn l, getNode o₁ sn l = getNode o₂ sn l) :
    ∀ ls d seen, dfsDescend rec₁ o₁ ls d seen = dfsDescend rec₂ o₂ ls d seen := by
  intro ls
  induction ls with
  | nil => intro d seen; rfl
  | cons l ls ih =>
    intro d seen
    simp only [dfsDescend, hget, hrec, ih]

theorem dfsPreTraverse_congr {ε : Type} {o₁ o₂ : Options ε}
    (hget : ∀ sn l, getNode o₁ sn l = getNode o₂ sn l) (hfunc : o₁.func = o₂.func) :
    ∀ fuel s seen, dfsPreTraverse o₁ fuel s seen = dfsPreTraverse o₂ fuel s seen := by
  intro fuel
  induction fuel with
  | zero => intro s seen; rfl
  | succ fuel ih =>
    intro s seen
    simp only [dfsPreTraverse, callFunc, hfunc,
      dfsDescend_congr ih hget]

theorem dfsPostTraverse_congr {ε : Type} {o₁ o₂ : Options ε}
    (hget : ∀ sn l, getNode o₁ sn l = getNode o₂ sn l) (hfunc : o₁.func = o₂.func) :
    ∀ fuel s seen, dfsPostTraverse o₁ fuel s seen = dfsPostTraverse o₂ fuel s seen := by
  intro fuel
  induction fuel with
  | zero => intro s seen; rfl
  | succ fuel ih =>
    intro s seen
    simp only [dfsPostTraverse, callFunc, hfunc,
      dfsDescend_congr ih hget]

theorem bfsEnqueue_congr {ε : Type} {o₁ o₂ : Options ε}
    (hget : ∀ sn l, getNode o₁ sn l = getNode o₂ sn l) :
    ∀ ls d seen, bfsEnqueue o₁ d ls seen = bfsEnqueue o₂ d ls seen := by
  intro ls
  induction ls with
  | nil => intro d seen; rfl
  | cons l ls ih =>
    intro d seen
    simp only [bfsEnqueue, hget, ih]

theorem bfsLoop_congr {ε : Type} {o₁ o₂ : Options ε}
    (hget : ∀ sn l, getNode o₁ sn l = getNode o₂ sn l) (hfunc : o₁.func = o₂.func) :
    ∀ fuel q seen, bfsLoop o₁ fuel q seen = bfsLoop o₂ fuel q seen := by
  intro fuel
  induction fuel with
  | zero => intro q seen; rfl
  | succ fuel ih =>
    intro q seen
    match q with
    | [] => rfl
    | (node?, d) :: rest =>
      simp only [bfsLoop, callFunc, hfunc, bfsEnqueue_congr hget, ih]

theorem bfsTraverse_congr {ε : Type} {o₁ o₂ : Options ε}
    (hget : ∀ sn l, getNode o₁ sn l = getNode o₂ sn l) (hfunc : o₁.func = o₂.func)
    (hskip : o₁.skipDuplicates = o₂.skipDuplicates) :
    ∀ fuel root seen, bfsTraverse o₁ fuel root seen = bfsTraverse o₂ fuel root seen := by
  intro fuel root seen
  simp only [bfsTraverse, shouldSkip, hskip, bfsLoop_congr hget hfunc]

theorem shouldSkip_ext {ε : Type} {o₁ o₂ : Options ε}
    (hskip : o₁.skipDuplicates = o₂.skipDuplicates) (seen : List Cid) (n : Node) :
    shouldSkip o₁ seen n = shouldSkip o₂ seen n := by
  simp only [shouldSkip, hskip]

theorem getNode_ext {ε : Type} {o₁ o₂ : Options ε} (hdag : o₁.dag = o₂.dag)
    (herr : o₁.errFunc = o₂.errFunc) (hskip : o₁.skipDuplicates = o₂.skipDuplicates)
    (seen : List Cid) (l : Link) : getNode o₁ seen l = getNode o₂ seen l := by
  simp only [getNode, hdag, herr, shouldSkip_ext hskip]

/-- C8: any unrecognized `Order` value makes `Traverse` behave exactly as
with `Order = DFSPre`: the `switch` of the source sends every value
outside `{DFSPre, DFSPost, BFS}` to `dfsPreTraverse`, and `dfsPreTraverse`
never reads the order field, so the visit sequence, the final seen set
and the returned error all coincide. -/
theorem c8_unrecognized_order_is_dfspre {ε : Type} (o : Options ε) (root : Node) (fuel : Nat)
    (h1 : o.order ≠ DFSPre) (h2 : o.order ≠ DFSPost) (h3 : o.order ≠ BFS) :
    Traverse root o fuel = Traverse root { o with order := DFSPre } fuel := by
  have hget : ∀ sn l, getNode o sn l = getNode { o with order := DFSPre } sn l :=
    getNode_ext rfl rfl rfl
  unfold Traverse
  rw [if_neg h1, if_neg h2, if_neg h3, if_pos rfl]
  exact dfsPreTraverse_congr hget rfl fuel ⟨root, 0⟩ []

/-- Witness for C8 at the concrete order value 7 on the example graph. -/
theorem c8_unrecognized_order_is_dfspre_witness :
    (7 : Order) ≠ DFSPre ∧ (7 : Order) ≠ DFSPost ∧ (7 : Order) ≠ BFS ∧
      Traverse rootRABC (optsRABC 7 false) 10 =
        Traverse rootRABC { optsRABC 7 false with order := DFSPre } 10 :=
  ⟨by decide, by decide, by decide,
    c8_unrecognized_order_is_dfspre (optsRABC 7 false) rootRABC 10
      (by decide) (by decide) (by decide)⟩

/-! ### Shape of `getNode` in each situation -/

theorem getNode_dag_error_noRec {ε : Type} {o : Options ε} {l : Link} {e : ε}
    (h : o.errFunc = none) (hd : o.dag l.cid = Except.error e) (seen : List Cid) :
    getNode o seen l = ((none, some e), seen, [Event.fetch l.cid]) := by
  simp [getNode, hd, h]

theorem getNode_dag_error_rec {ε : Type} {o : Options ε} {l : Link} {e : ε}
    {ef : ε → Option ε} (h : o.errFunc = some ef) (hd : o.dag l.cid = Except.error e)
    (seen : List Cid) :
    getNode o seen l = ((none, ef e), seen, [Event.fetch l.cid]) := by
  simp [getNode, hd, h]

theorem getNode_ok_noskip {ε : Type} {o : Options ε} {l : Link} {n : Node}
    (hsk : o.skipDuplicates = false) (hd : o.dag l.cid = Except.ok n) (seen : List Cid) :
    getNode o seen l = ((some n, none), seen, [Event.fetch l.cid]) := by
  cases herr : o.errFunc <;> simp [getNode, hd, shouldSkip, hsk, herr]

theorem getNode_ok_seen {ε : Type} {o : Options ε} {l : Link} {n : Node}
    (hsk : o.skipDuplicates = true) (hd : o.dag l.cid = Except.ok n) {seen : List Cid}
    (hm : n.cid ∈ seen) :
    getNode o seen l = ((none, none), seen, [Event.fetch l.cid]) := by
  cases herr : o.errFunc <;> simp [getNode, hd, shouldSkip, hsk, herr, hm]

theorem getNode_ok_fresh {ε : Type} {o : Options ε} {l : Link} {n : Node}
    (hsk : o.skipDuplicates = true) (hd : o.dag l.cid = Except.ok n) {seen : List Cid}
    (hm : n.cid ∉ seen) :
    getNode o seen l =
      ((some n, none), n.cid :: seen, [Event.fetch l.cid, Event.mark n.cid]) := by
  cases herr : o.errFunc <;> simp [getNode, hd, shouldSkip, hsk, herr, hm]

/-! ### The seen set only grows (new cids are consed on the front) -/

theorem getNode_suffix {ε : Type} (o : Options ε) (seen : List Cid) (l : Link) :
    seen <:+ (getNode o seen l).2.1 := by
  cases hd : o.dag l.cid with
  | error e =>
    cases herr : o.errFunc with
    | none => rw [getNode_dag_error_noRec herr hd]
    | some ef => rw [getNode_dag_error_rec herr hd]
  | ok n =>
    cases hsk : o.skipDuplicates with
    | false => rw [getNode_ok_noskip hsk hd]
    | true =>
      by_cases hm : n.cid ∈ seen
      · rw [getNode_ok_seen hsk hd hm]
      · rw [getNode_ok_fresh hsk hd hm]
        exact List.suffix_cons _ _

theorem shouldSkip_suffix {ε : Type} (o : Options ε) (seen : List Cid) (n : Node) :
    seen <:+ (shouldSkip o seen n).2.1 := by
  unfold shouldSkip
  split
  · split
    · exact List.suffix_refl _
    · exact List.suffix_cons _ _
  · exact List.suffix_refl _

theorem dfsDescend_suffix {ε : Type} {rec : State → List Cid → Option (Out ε)}
    {o : Options ε} (hrec : ∀ s sn out, rec s sn = some out → sn <:+ out.seen) :
    ∀ ls d seen out, dfsDescend rec o ls d seen = some out → seen <:+ out.seen := by
  intro ls
  induction ls with
  | nil =>
    intro d seen out h
    cases h
    exact List.suffix_refl _
  | cons l ls ih =>
    intro d seen out
    rcases hg : getNode o seen l with ⟨⟨node?, err⟩, seen1, evs1⟩
    have hsuf1 : seen <:+ seen1 := by
      have h0 := getNode_suffix o seen l
      rw [hg] at h0
      exact h0
    simp only [dfsDescend, hg]
    rcases err with _ | e
    · rcases node? with _ | n
      · rcases h2 : dfsDescend rec o ls d seen1 with _ | out2
        · simp only [h2]
          intro h; cases h
        · simp only [h2]
          intro h
          cases h
          exact hsuf1.trans (ih d seen1 out2 h2)
      · rcases h1 : rec ⟨n, d + 1⟩ seen1 with _ | out1
        · simp only [h1]
          intro h; cases h
        · obtain ⟨evs2, seen2, res2⟩ := out1
          have hsuf2 : seen1 <:+ seen2 := hrec _ _ _ h1
          rcases res2 with _ | e
          · rcases h2 : dfsDescend rec o ls d seen2 with _ | out2
            · simp only [h1, h2]
              intro h; cases h
            · simp only [h1, h2]
              intro h
              cases h
              exact (hsuf1.trans hsuf2).trans (ih d seen2 out2 h2)
          · simp only [h1]
            intro h
            cases h
            exact hsuf1.trans hsuf2
    · intro h
      cases h
      exact hsuf1

theorem dfsPreTraverse_suffix {ε : Type} {o : Options ε} :
    ∀ fuel s seen out, dfsPreTraverse o fuel s seen = some out → seen <:+ out.seen := by
  intro fuel
  induction fuel with
  | zero => intro s seen out h; cases h
  | succ fuel ih =>
    intro s seen out
    simp only [dfsPreTraverse, callFunc]
    rcases hv : o.func s with _ | e
    · rcases h2 : dfsDescend (dfsPreTraverse o fuel) o s.node.links s.depth seen with _ | out2
      · simp only [h2]
        intro h; cases h
      · simp only [h2]
        intro h
        cases h
        exact dfsDescend_suffix (fun s sn out => ih s sn out) s.node.links s.depth seen out2 h2
    · intro h
      cases h
      exact List.suffix_refl _

theorem dfsPostTraverse_suffix {ε : Type} {o : Options ε} :
    ∀ fuel s seen out, dfsPostTraverse o fuel s seen = some out → seen <:+ out.seen := by
  intro fuel
  induction fuel with
  | zero => intro s seen out h; cases h
  | succ fuel ih =>
    intro s seen out
    simp only [dfsPostTraverse, callFunc]
    rcases h2 : dfsDescend (dfsPostTraverse o fuel) o s.node.links s.depth seen with _ | out1
    · simp only [h2]
      intro h; cases h
    · have hsuf1 : seen <:+ out1.seen :=
        dfsDescend_suffix (fun s sn out => ih s sn out) s.node.links s.depth seen out1 h2
      obtain ⟨evs2, seen2, res2⟩ := out1
      simp only [h2]
      rcases res2 with _ | e
      · intro h
        cases h
        exact hsuf1
      · intro h
        cases h
        exact hsuf1

theorem bfsEnqueue_suffix {ε : Type} {o : Options ε} :
    ∀ ls d seen, seen <:+ (bfsEnqueue o d ls seen).2.1 := by
  intro ls
  induction ls with
  | nil => intro d seen; exact List.suffix_refl _
  | cons l ls ih =>
    intro d seen
    rcases hg : getNode o seen l with ⟨⟨node?, err⟩, seen1, evs1⟩
    have hsuf1 : seen <:+ seen1 := by
      have h0 := getNode_suffix o seen l
      rw [hg] at h0
      exact h0
    simp only [bfsEnqueue, hg]
    rcases err with _ | e
    · rcases node? with _ | n
      · rcases he : bfsEnqueue o d ls seen1 with ⟨evs2, seen2, r⟩
        have h1 := ih d seen1
        rw [he] at h1
        simp only [he]
        exact hsuf1.trans h1
      · rcases he : bfsEnqueue o d ls seen1 with ⟨evs2, seen2, r⟩
        have h1 := ih d seen1
        rw [he] at h1
        simp only [he]
        cases r <;> exact hsuf1.trans h1
    · exact hsuf1

theorem bfsLoop_suffix {ε : Type} {o : Options ε} :
    ∀ fuel q seen out, bfsLoop o fuel q seen = some out → seen <:+ out.seen := by
  intro fuel
  induction fuel with
  | zero => intro q seen out h; cases h
  | succ fuel ih =>
    intro q seen out
    match q with
    | [] =>
      intro h
      cases h
      exact List.suffix_refl _
    | (none, d) :: rest =>
      intro h
      cases h
      exact List.suffix_refl _
    | (some n, d) :: rest =>
      simp only [bfsLoop, callFunc]
      rcases hv : o.func ⟨n, d⟩ with _ | e
      · rcases he : bfsEnqueue o d n.links seen with ⟨evs2, seen2, r⟩
        have hsuf1 : seen <:+ seen2 := by
          have h1 := bfsEnqueue_suffix (o := o) n.links d seen
          rw [he] at h1
          exact h1
        simp only [he]
        rcases r with e | pushed
        · intro h
          cases h
          exact hsuf1
        · rcases h2 : bfsLoop o fuel (rest ++ pushed) seen2 with _ | out2
          · simp only [h2]
            intro h; cases h
          · simp only [h2]
            intro h
            cases h
            exact hsuf1.trans (ih (rest ++ pushed) seen2 out2 h2)
      · intro h
        cases h
        exact List.suffix_refl _

theorem bfsTraverse_suffix {ε : Type} {o : Options ε} {fuel : Nat} {root : State}
    {seen : List Cid} {out : Out ε} (h : bfsTraverse o fuel root seen = some out) :
    seen <:+ out.seen := by
  revert h
  unfold bfsTraverse
  rcases hs : shouldSkip o seen root.node with ⟨⟨skip, err⟩, seen1, evs1⟩
  have hsuf0 : seen <:+ seen1 := by
    have h0 := shouldSkip_suffix o seen root.node
    rw [hs] at h0
    exact h0
  simp only [hs]
  by_cases hc : (skip || err.isSome) = true
  · rw [if_pos hc]
    intro h
    cases h
    exact hsuf0
  · rw [if_neg hc]
    rcases h2 : bfsLoop o fuel [(some root.node, root.depth)] seen1 with _ | out2
    · simp only [h2]
      intro h; cases h
    · simp only [h2]
      intro h
      cases h
      exact hsuf0.trans (bfsLoop_suffix fuel [(some root.node, root.depth)] seen1 out2 h2)

/-! ### C1 and C2: the claims as frozen fail on the code -/

/-- C1 counterexample: with duplicate suppression on, pre-order DFS on
the cyclic graph `R → A → R` passes cid `"R"` to the visitor twice: the
root is visited without being recorded in the seen set, so the
back-link from `A` fetches and visits it again.  This falsifies "each
distinct node identifier is passed to the visitor at most once ...
regardless of whether the node with that identifier is the root". -/
theorem c1_counterexample :
    (Traverse rootCyc (optsCyc DFSPre) 10).map (fun out => countV "R" out.evs) = some 2 ∧
      ¬ (2 : Nat) ≤ 1 :=
  ⟨by rfl, by decide⟩

/-- C2 counterexample: with duplicate suppression on, pre-order DFS on
the graph whose root has two links to the same child `A` produces the
event trace `[visit R, fetch A, mark A, visit A, fetch A]`: cid `"A"`
is inserted into the seen set at step 2, yet a strictly later step (4)
fetches it again through the second link (and step 3 invokes the
visitor on it).  This falsifies "once a node identifier has been
inserted into the session's seen set, no later step of the same
Traverse call fetches that node through a link or invokes the visitor
on a node with that identifier". -/
theorem c2_counterexample :
    (Traverse rootDup optsDup 10).map (fun out => (out.evs[2]?, out.evs[3]?, out.evs[4]?)) =
      some (some (Event.mark "A"),
        some (Event.visit ⟨mkNode "A" [], 1⟩),
        some (Event.fetch "A")) ∧
      (2 : Nat) < 3 ∧ (3 : Nat) < 4 :=
  ⟨by rfl, by decide, by decide⟩

/-! ### Counting marks and visits -/

theorem countV_append (c : Cid) (a b : List Event) :
    countV c (a ++ b) = countV c a + countV c b := by
  simp [countV, List.filter_append]

theorem countM_append (c : Cid) (a b : List Event) :
    countM c (a ++ b) = countM c a + countM c b := by
  simp [countM, List.filter_append]

theorem countV_fetch (c x : Cid) : countV c [Event.fetch x] = 0 := rfl

theorem countM_fetch (c x : Cid) : countM c [Event.fetch x] = 0 := rfl

theorem countV_mark (c x : Cid) : countV c [Event.mark x] = 0 := rfl

theorem countM_visit (c : Cid) (s : State) : countM c [Event.visit s] = 0 := rfl

theorem countV_visit (c : Cid) (s : State) :
    countV c [Event.visit s] = if s.node.cid = c then 1 else 0 := by
  by_cases h : s.node.cid = c <;> simp [countV, h]

theorem countM_mark (c x : Cid) :
    countM c [Event.mark x] = if x = c then 1 else 0 := by
  by_cases h : x = c <;> simp [countM, h]

/-- The bookkeeping discipline of the seen set over a span of events:
cids already seen are never marked again, no cid is marked twice, and
the final seen set is the initial one plus exactly the marked cids. -/
def MarkSpec (seen : List Cid) (evs : List Event) (seen' : List Cid) : Prop :=
  (∀ c, c ∈ seen → countM c evs = 0) ∧
  (∀ c, countM c evs ≤ 1) ∧
  (∀ c, c ∈ seen' ↔ (c ∈ seen ∨ 1 ≤ countM c evs))

theorem MarkSpec.refl (seen : List Cid) : MarkSpec seen [] seen := by
  refine ⟨fun c _ => rfl, fun c => ?_, fun c => ?_⟩
  · simp [countM]
  · simp [countM]

theorem MarkSpec.noMark {evs : List Event} (h : ∀ c, countM c evs = 0) (seen : List Cid) :
    MarkSpec seen evs seen := by
  refine ⟨fun c _ => h c, fun c => ?_, fun c => ?_⟩
  · rw [h c]; omega
  · rw [h c]; simp

theorem MarkSpec.single {c0 : Cid} {seen : List Cid} (h : c0 ∉ seen) :
    MarkSpec seen [Event.mark c0] (c0 :: seen) := by
  refine ⟨fun c hc => ?_, fun c => ?_, fun c => ?_⟩
  · rw [countM_mark]
    split
    · rename_i he; subst he; exact absurd hc h
    · rfl
  · rw [countM_mark]; split <;> omega
  · rw [countM_mark, List.mem_cons]
    by_cases he : c0 = c
    · subst he; simp
    · simp [he, Ne.symm he]

theorem MarkSpec.seq {s0 s1 s2 : List Cid} {e1 e2 : List Event}
    (h1 : MarkSpec s0 e1 s1) (h2 : MarkSpec s1 e2 s2) :
    MarkSpec s0 (e1 ++ e2) s2 := by
  obtain ⟨h1a, h1b, h1c⟩ := h1
  obtain ⟨h2a, h2b, h2c⟩ := h2
  refine ⟨fun c hc => ?_, fun c => ?_, fun c => ?_⟩
  · rw [countM_append, h1a c hc, h2a c (((h1c c).mpr (Or.inl hc)))]
  · rw [countM_append]
    by_cases hm : 1 ≤ countM c e1
    · have : c ∈ s1 := (h1c c).mpr (Or.inr hm)
      rw [h2a c this]
      have := h1b c
      omega
    · have : countM c e1 = 0 := by omega
      rw [this]
      have := h2b c
      omega
  · rw [countM_append, h2c c, h1c c]
    constructor
    · rintro ((hc | hm) | hm)
      · exact Or.inl hc
      · right; omega
      · right; omega
    · rintro (hc | hm)
      · exact Or.inl (Or.inl hc)
      · by_cases hm1 : 1 ≤ countM c e1
        · exact Or.inl (Or.inr hm1)
        · right; omega

theorem markSpec_fetch (seen : List Cid) (x : Cid) :
    MarkSpec seen [Event.fetch x] seen :=
  MarkSpec.noMark (fun c => countM_fetch c x) seen

theorem getNode_markSpec {ε : Type} (o : Options ε) (seen : List Cid) (l : Link) :
    MarkSpec seen (getNode o seen l).2.2 (getNode o seen l).2.1 := by
  cases hd : o.dag l.cid with
  | error e =>
    cases herr : o.errFunc with
    | none =>
      rw [getNode_dag_error_noRec herr hd]
      exact markSpec_fetch seen l.cid
    | some ef =>
      rw [getNode_dag_error_rec herr hd]
      exact markSpec_fetch seen l.cid
  | ok n =>
    cases hsk : o.skipDuplicates with
    | false =>
      rw [getNode_ok_noskip hsk hd]
      exact markSpec_fetch seen l.cid
    | true =>
      by_cases hm : n.cid ∈ seen
      · rw [getNode_ok_seen hsk hd hm]
        exact markSpec_fetch seen l.cid
      · rw [getNode_ok_fresh hsk hd hm]
        have : [Event.fetch l.cid, Event.mark n.cid] =
            [Event.fetch l.cid] ++ [Event.mark n.cid] := rfl
        rw [this]
        exact (markSpec_fetch seen l.cid).seq (MarkSpec.single hm)

theorem shouldSkip_markSpec {ε : Type} (o : Options ε) (seen : List Cid) (n : Node) :
    MarkSpec seen (shouldSkip o seen n).2.2 (shouldSkip o seen n).2.1 := by
  unfold shouldSkip
  split
  · split
    · exact MarkSpec.refl seen
    · rename_i hm
      exact MarkSpec.single (by simpa using hm)
  · exact MarkSpec.refl seen

/-- Inversion: under duplicate suppression, `getNode` hands back a node
only when the fetch succeeded on a cid that was not yet seen, and in
that case the cid was just marked. -/
theorem getNode_some_inv {ε : Type} {o : Options ε} {seen seen1 : List Cid} {l : Link}
    {n : Node} {err : Option ε} {evs1 : List Event} (hsk : o.skipDuplicates = true)
    (hg : getNode o seen l = ((some n, err), seen1, evs1)) :
    o.dag l.cid = Except.ok n ∧ n.cid ∉ seen ∧ err = none ∧
      seen1 = n.cid :: seen ∧ evs1 = [Event.fetch l.cid, Event.mark n.cid] := by
  cases hd : o.dag l.cid with
  | error e =>
    cases herr : o.errFunc with
    | none => rw [getNode_dag_error_noRec herr hd] at hg; cases hg
    | some ef => rw [getNode_dag_error_rec herr hd] at hg; cases hg
  | ok m =>
    by_cases hm : m.cid ∈ seen
    · rw [getNode_ok_seen hsk hd hm] at hg
      cases hg
    · rw [getNode_ok_fresh hsk hd hm] at hg
      cases hg
      exact ⟨rfl, hm, rfl, rfl, rfl⟩

/-- `getNode` never invokes the visitor. -/
theorem getNode_countV {ε : Type} (o : Options ε) (seen : List Cid) (l : Link) (c : Cid) :
    countV c (getNode o seen l).2.2 = 0 := by
  cases hd : o.dag l.cid with
  | error e =>
    cases herr : o.errFunc with
    | none => rw [getNode_dag_error_noRec herr hd]; rfl
    | some ef => rw [getNode_dag_error_rec herr hd]; rfl
  | ok n =>
    cases hsk : o.skipDuplicates with
    | false => rw [getNode_ok_noskip hsk hd]; rfl
    | true =>
      by_cases hm : n.cid ∈ seen
      · rw [getNode_ok_seen hsk hd hm]; rfl
      · rw [getNode_ok_fresh hsk hd hm]; rfl

theorem markSpec_visit (seen : List Cid) (s : State) :
    MarkSpec seen [Event.visit s] seen :=
  MarkSpec.noMark (fun c => countM_visit c s) seen

theorem dfsDescend_markSpec {ε : Type} {rec : State → List Cid → Option (Out ε)}
    {o : Options ε} (hrec : ∀ s sn out, rec s sn = some out → MarkSpec sn out.evs out.seen) :
    ∀ ls d seen out, dfsDescend rec o ls d seen = some out → MarkSpec seen out.evs out.seen := by
  intro ls
  induction ls with
  | nil =>
    intro d seen out h
    cases h
    exact MarkSpec.refl seen
  | cons l ls ih =>
    intro d seen out
    rcases hg : getNode o seen l with ⟨⟨node?, err⟩, seen1, evs1⟩
    have hms1 : MarkSpec seen evs1 seen1 := by
      have h0 := getNode_markSpec o seen l
      rw [hg] at h0
      exact h0
    simp only [dfsDescend, hg]
    rcases err with _ | e
    · rcases node? with _ | n
      · rcases h2 : dfsDescend rec o ls d seen1 with _ | out2
        · simp only [h2]
          intro h; cases h
        · simp only [h2]
          intro h
          cases h
          exact hms1.seq (ih d seen1 out2 h2)
      · rcases h1 : rec ⟨n, d + 1⟩ seen1 with _ | out1
        · simp only [h1]
          intro h; cases h
        · obtain ⟨evs2, seen2, res2⟩ := out1
          have hms2 : MarkSpec seen1 evs2 seen2 := hrec _ _ _ h1
          rcases res2 with _ | e
          · rcases h2 : dfsDescend rec o ls d seen2 with _ | out2
            · simp only [h1, h2]
              intro h; cases h
            · simp only [h1, h2]
              intro h
              cases h
              have := (hms1.seq hms2).seq (ih d seen2 out2 h2)
              simpa [List.append_assoc] using this
          · simp only [h1]
            intro h
            cases h
            exact hms1.seq hms2
    · intro h
      cases h
      exact hms1

theorem dfsPreTraverse_markSpec {ε : Type} {o : Options ε} :
    ∀ fuel s seen out, dfsPreTraverse o fuel s seen = some out →
      MarkSpec seen out.evs out.seen := by
  intro fuel
  induction fuel with
  | zero => intro s seen out h; cases h
  | succ fuel ih =>
    intro s seen out
    simp only [dfsPreTraverse, callFunc]
    rcases hv : o.func s with _ | e
    · rcases h2 : dfsDescend (dfsPreTraverse o fuel) o s.node.links s.depth seen with _ | out2
      · simp only [h2]
        intro h; cases h
      · simp only [h2]
        intro h
        cases h
        exact (markSpec_visit seen s).seq
          (dfsDescend_markSpec (fun s sn out => ih s sn out) s.node.links s.depth seen out2 h2)
    · intro h
      cases h
      exact markSpec_visit seen s

theorem dfsPostTraverse_markSpec {ε : Type} {o : Options ε} :
    ∀ fuel s seen out, dfsPostTraverse o fuel s seen = some out →
      MarkSpec seen out.evs out.seen := by
  intro fuel
  induction fuel with
  | zero => intro s seen out h; cases h
  | succ fuel ih =>
    intro s seen out
    simp only [dfsPostTraverse, callFunc]
    rcases h2 : dfsDescend (dfsPostTraverse o fuel) o s.node.links s.depth seen with _ | out1
    · simp only [h2]
      intro h; cases h
    · have hms1 : MarkSpec seen out1.evs out1.seen :=
        dfsDescend_markSpec (fun s sn out => ih s sn out) s.node.links s.depth seen out1 h2
      obtain ⟨evs2, seen2, res2⟩ := out1
      simp only [h2]
      rcases res2 with _ | e
      · intro h
        cases h
        exact hms1.seq (markSpec_visit seen2 s)
      · intro h
        cases h
        exact hms1

theorem bfsEnqueue_markSpec {ε : Type} {o : Options ε} :
    ∀ ls d seen, MarkSpec seen (bfsEnqueue o d ls seen).1 (bfsEnqueue o d ls seen).2.1 := by
  intro ls
  induction ls with
  | nil => intro d seen; exact MarkSpec.refl seen
  | cons l ls ih =>
    intro d seen
    rcases hg : getNode o seen l with ⟨⟨node?, err⟩, seen1, evs1⟩
    have hms1 : MarkSpec seen evs1 seen1 := by
      have h0 := getNode_markSpec o seen l
      rw [hg] at h0
      exact h0
    simp only [bfsEnqueue, hg]
    rcases err with _ | e
    · rcases node? with _ | n
      · rcases he : bfsEnqueue o d ls seen1 with ⟨evs2, seen2, r⟩
        have h1 := ih d seen1
        rw [he] at h1
        simp only [he]
        exact hms1.seq h1
      · rcases he : bfsEnqueue o d ls seen1 with ⟨evs2, seen2, r⟩
        have h1 := ih d seen1
        rw [he] at h1
        simp only [he]
        cases r <;> exact hms1.seq h1
    · exact hms1

theorem bfsLoop_markSpec {ε : Type} {o : Options ε} :
    ∀ fuel q seen out, bfsLoop o fuel q seen = some out → MarkSpec seen out.evs out.seen := by
  intro fuel
  induction fuel with
  | zero => intro q seen out h; cases h
  | succ fuel ih =>
    intro q seen out
    match q with
    | [] =>
      intro h
      cases h
      exact MarkSpec.refl seen
    | (none, d) :: rest =>
      intro h
      cases h
      exact MarkSpec.refl seen
    | (some n, d) :: rest =>
      simp only [bfsLoop, callFunc]
      rcases hv : o.func ⟨n, d⟩ with _ | e
      · rcases he : bfsEnqueue o d n.links seen with ⟨evs2, seen2, r⟩
        have hms1 : MarkSpec seen evs2 seen2 := by
          have h1 := bfsEnqueue_markSpec (o := o) n.links d seen
          rw [he] at h1
          exact h1
        simp only [he]
        rcases r with e | pushed
        · intro h
          cases h
          exact (markSpec_visit seen ⟨n, d⟩).seq hms1
        · rcases h2 : bfsLoop o fuel (rest ++ pushed) seen2 with _ | out2
          · simp only [h2]
            intro h; cases h
          · simp only [h2]
            intro h
            cases h
            have := ((markSpec_visit seen ⟨n, d⟩).seq hms1).seq
              (ih (rest ++ pushed) seen2 out2 h2)
            simpa [List.append_assoc] using this
      · intro h
        cases h
        exact markSpec_visit seen ⟨n, d⟩

theorem bfsTraverse_markSpec {ε : Type} {o : Options ε} {fuel : Nat} {root : State}
    {seen : List Cid} {out : Out ε} (h : bfsTraverse o fuel root seen = some out) :
    MarkSpec seen out.evs out.seen := by
  revert h
  unfold bfsTraverse
  rcases hs : shouldSkip o seen root.node with ⟨⟨skip, err⟩, seen1, evs1⟩
  have hms0 : MarkSpec seen evs1 seen1 := by
    have h0 := shouldSkip_markSpec o seen root.node
    rw [hs] at h0
    exact h0
  simp only [hs]
  by_cases hc : (skip || err.isSome) = true
  · rw [if_pos hc]
    intro h
    cases h
    exact hms0
  · rw [if_neg hc]
    rcases h2 : bfsLoop o fuel [(some root.node, root.depth)] seen1 with _ | out2
    · simp only [h2]
      intro h; cases h
    · simp only [h2]
      intro h
      cases h
      exact hms0.seq (bfsLoop_markSpec fuel [(some root.node, root.depth)] seen1 out2 h2)

theorem Traverse_markSpec {ε : Type} {o : Options ε} {root : Node} {fuel : Nat}
    {out : Out ε} (h : Traverse root o fuel = some out) : MarkSpec [] out.evs out.seen := by
  revert h
  unfold Traverse
  split_ifs <;> intro h
  · exact dfsPreTraverse_markSpec fuel ⟨root, 0⟩ [] out h
  · exact dfsPostTraverse_markSpec fuel ⟨root, 0⟩ [] out h
  · exact bfsTraverse_markSpec h
  · exact dfsPreTraverse_markSpec fuel ⟨root, 0⟩ [] out h

/-! ### Visit bounds under duplicate suppression -/

/-- How many nodes with cid `c` sit in a BFS queue. -/
def countQ (c : Cid) (q : List (Option Node × Nat)) : Nat :=
  (q.filter fun p =>
    match p.1 with
    | some n => n.cid == c
    | none => false).length

theorem countQ_append (c : Cid) (a b : List (Option Node × Nat)) :
    countQ c (a ++ b) = countQ c a + countQ c b := by
  simp [countQ, List.filter_append]

theorem countQ_cons_some (c : Cid) (n : Node) (d : Nat) (q : List (Option Node × Nat)) :
    countQ c ((some n, d) :: q) = (if n.cid = c then 1 else 0) + countQ c q := by
  by_cases h : n.cid = c
  all_goals simp [countQ, h]
  all_goals omega

theorem countM_fetch_mark (c x y : Cid) :
    countM c [Event.fetch x, Event.mark y] = if y = c then 1 else 0 := by
  by_cases h : y = c <;> simp [countM, h]

theorem countV_fetch_mark (c x y : Cid) :
    countV c [Event.fetch x, Event.mark y] = 0 := rfl

theorem dfsDescend_visitBound {ε : Type} {rec : State → List Cid → Option (Out ε)}
    {o : Options ε} (hsk : o.skipDuplicates = true)
    (hrec : ∀ s sn out, rec s sn = some out →
      ∀ c, countV c out.evs ≤ countM c out.evs + (if s.node.cid = c then 1 else 0)) :
    ∀ ls d seen out, dfsDescend rec o ls d seen = some out →
      ∀ c, countV c out.evs ≤ countM c out.evs := by
  intro ls
  induction ls with
  | nil =>
    intro d seen out h c
    cases h
    simp [countV, countM]
  | cons l ls ih =>
    intro d seen out
    rcases hg : getNode o seen l with ⟨⟨node?, err⟩, seen1, evs1⟩
    have hV1 : ∀ c, countV c evs1 = 0 := by
      intro c
      have h0 := getNode_countV o seen l c
      rw [hg] at h0
      exact h0
    simp only [dfsDescend, hg]
    rcases err with _ | e
    · rcases node? with _ | n
      · rcases h2 : dfsDescend rec o ls d seen1 with _ | out2
        · simp only [h2]
          intro h; cases h
        · simp only [h2]
          intro h
          cases h
          intro c
          have hr := ih d seen1 out2 h2 c
          simp only [countV_append, countM_append, hV1 c]
          omega
      · rcases h1 : rec ⟨n, d + 1⟩ seen1 with _ | out1
        · simp only [h1]
          intro h; cases h
        · obtain ⟨hdag, hmem, herr0, hseen1, hevs1⟩ := getNode_some_inv hsk hg
          obtain ⟨evs2, seen2, res2⟩ := out1
          have hb1 : ∀ c, countV c evs2 ≤ countM c evs2 + (if n.cid = c then 1 else 0) :=
            hrec _ _ _ h1
          have hM1 : ∀ c, countM c evs1 = if n.cid = c then 1 else 0 := by
            intro c
            rw [hevs1]
            exact countM_fetch_mark c l.cid n.cid
          rcases res2 with _ | e
          · rcases h2 : dfsDescend rec o ls d seen2 with _ | out2
            · simp only [h1, h2]
              intro h; cases h
            · simp only [h1, h2]
              intro h
              cases h
              intro c
              have hr := ih d seen2 out2 h2 c
              have := hb1 c
              have := hM1 c
              simp only [countV_append, countM_append, hV1 c]
              omega
          · simp only [h1]
            intro h
            cases h
            intro c
            have := hb1 c
            have := hM1 c
            simp only [countV_append, countM_append, hV1 c]
            omega
    · intro h
      cases h
      intro c
      rw [hV1 c]
      omega

theorem dfsPreTraverse_visitBound {ε : Type} {o : Options ε}
    (hsk : o.skipDuplicates = true) :
    ∀ fuel s seen out, dfsPreTraverse o fuel s seen = some out →
      ∀ c, countV c out.evs ≤ countM c out.evs + (if s.node.cid = c then 1 else 0) := by
  intro fuel
  induction fuel with
  | zero => intro s seen out h; cases h
  | succ fuel ih =>
    intro s seen out
    simp only [dfsPreTraverse, callFunc]
    rcases hv : o.func s with _ | e
    · rcases h2 : dfsDescend (dfsPreTraverse o fuel) o s.node.links s.depth seen with _ | out2
      · simp only [h2]
        intro h; cases h
      · simp only [h2]
        intro h
        cases h
        intro c
        have hr := dfsDescend_visitBound hsk (fun s sn out => ih s sn out)
          s.node.links s.depth seen out2 h2 c
        have h1 := countV_visit c s
        have h2 := countM_visit c s
        simp only [countV_append, countM_append, h1, h2]
        omega
    · intro h
      cases h
      intro c
      have h1 := countV_visit c s
      have h2 := countM_visit c s
      rw [h1, h2]
      omega

theorem dfsPostTraverse_visitBound {ε : Type} {o : Options ε}
    (hsk : o.skipDuplicates = true) :
    ∀ fuel s seen out, dfsPostTraverse o fuel s seen = some out →
      ∀ c, countV c out.evs ≤ countM c out.evs + (if s.node.cid = c then 1 else 0) := by
  intro fuel
  induction fuel with
  | zero => intro s seen out h; cases h
  | succ fuel ih =>
    intro s seen out
    simp only [dfsPostTraverse, callFunc]
    rcases h2 : dfsDescend (dfsPostTraverse o fuel) o s.node.links s.depth seen with _ | out1
    · simp only [h2]
      intro h; cases h
    · have hr := dfsDescend_visitBound hsk (fun s sn out => ih s sn out)
        s.node.links s.depth seen out1 h2
      obtain ⟨evs2, seen2, res2⟩ := out1
      simp only [h2]
      rcases res2 with _ | e
      · intro h
        cases h
        intro c
        have h1 := countV_visit c s
        have h3 := countM_visit c s
        have hrc := hr c
        dsimp only at hrc
        simp only [countV_append, countM_append, h1, h3]
        omega
      · intro h
        cases h
        intro c
        have hrc := hr c
        dsimp only at hrc ⊢
        omega

theorem shouldSkip_mem {ε : Type} {o : Options ε} {seen : List Cid} {n : Node}
    (hsk : o.skipDuplicates = true) (hm : n.cid ∈ seen) :
    shouldSkip o seen n = ((true, none), seen, []) := by
  simp [shouldSkip, hsk, hm]

theorem shouldSkip_fresh {ε : Type} {o : Options ε} {seen : List Cid} {n : Node}
    (hsk : o.skipDuplicates = true) (hm : n.cid ∉ seen) :
    shouldSkip o seen n = ((false, none), n.cid :: seen, [Event.mark n.cid]) := by
  simp [shouldSkip, hsk, hm]

theorem shouldSkip_off {ε : Type} {o : Options ε} (seen : List Cid) (n : Node)
    (hsk : o.skipDuplicates = false) :
    shouldSkip o seen n = ((false, none), seen, []) := by
  simp [shouldSkip, hsk]

theorem bfsEnqueue_visitBound {ε : Type} {o : Options ε} (hsk : o.skipDuplicates = true) :
    ∀ ls d seen evs seen' r, bfsEnqueue o d ls seen = (evs, seen', r) →
      (∀ c, countV c evs = 0) ∧
        (∀ pushed, r = Except.ok pushed → ∀ c, countQ c pushed ≤ countM c evs) := by
  intro ls
  induction ls with
  | nil =>
    intro d seen evs seen' r h
    cases h
    refine ⟨fun c => rfl, fun pushed hp c => ?_⟩
    cases hp
    simp [countQ, countM]
  | cons l ls ih =>
    intro d seen evs seen' r
    rcases hg : getNode o seen l with ⟨⟨node?, err⟩, seen1, evs1⟩
    have hV1 : ∀ c, countV c evs1 = 0 := by
      intro c
      have h0 := getNode_countV o seen l c
      rw [hg] at h0
      exact h0
    simp only [bfsEnqueue, hg]
    rcases err with _ | e
    · rcases node? with _ | n
      · rcases he : bfsEnqueue o d ls seen1 with ⟨evs2, seen2, r2⟩
        obtain ⟨ihV, ihQ⟩ := ih d seen1 evs2 seen2 r2 he
        simp only [he]
        intro h
        cases h
        refine ⟨fun c => ?_, fun pushed hp c => ?_⟩
        · rw [countV_append, hV1 c, ihV c]
        · have := ihQ pushed hp c
          rw [countM_append]
          omega
      · obtain ⟨hdag, hmem, herr0, hseen1, hevs1⟩ := getNode_some_inv hsk hg
        have hM1 : ∀ c, countM c evs1 = if n.cid = c then 1 else 0 := by
          intro c
          rw [hevs1]
          exact countM_fetch_mark c l.cid n.cid
        rcases he : bfsEnqueue o d ls seen1 with ⟨evs2, seen2, r2⟩
        obtain ⟨ihV, ihQ⟩ := ih d seen1 evs2 seen2 r2 he
        simp only [he]
        rcases r2 with e | pushed2
        · intro h
          cases h
          refine ⟨fun c => ?_, fun pushed hp c => ?_⟩
          · rw [countV_append, hV1 c, ihV c]
          · cases hp
        · intro h
          cases h
          refine ⟨fun c => ?_, fun pushed hp c => ?_⟩
          · rw [countV_append, hV1 c, ihV c]
          · cases hp
            have := ihQ pushed2 rfl c
            have := hM1 c
            rw [countM_append, countQ_cons_some]
            omega
    · intro h
      cases h
      exact ⟨fun c => hV1 c, fun pushed hp c => by cases hp⟩

theorem bfsLoop_visitBound {ε : Type} {o : Options ε} (hsk : o.skipDuplicates = true) :
    ∀ fuel q seen out, bfsLoop o fuel q seen = some out →
      ∀ c, countV c out.evs ≤ countM c out.evs + countQ c q := by
  intro fuel
  induction fuel with
  | zero => intro q seen out h; cases h
  | succ fuel ih =>
    intro q seen out
    match q with
    | [] =>
      intro h c
      cases h
      simp [countV, countM]
    | (none, d) :: rest =>
      intro h c
      cases h
      simp [countV, countM]
    | (some n, d) :: rest =>
      simp only [bfsLoop, callFunc]
      rcases hv : o.func ⟨n, d⟩ with _ | e
      · rcases he : bfsEnqueue o d n.links seen with ⟨evs2, seen2, r⟩
        obtain ⟨hV0, hQb⟩ := bfsEnqueue_visitBound hsk n.links d seen evs2 seen2 r he
        simp only [he]
        rcases r with e | pushed
        · intro h c
          cases h
          have h1 := countV_visit c (⟨n, d⟩ : State)
          have h2 := countM_visit c (⟨n, d⟩ : State)
          have h3 := countQ_cons_some c n d rest
          simp only [countV_append, countM_append, h1, h2, hV0 c, h3]
          omega
        · rcases h2 : bfsLoop o fuel (rest ++ pushed) seen2 with _ | out2
          · simp only [h2]
            intro h; cases h
          · simp only [h2]
            intro h
            cases h
            intro c
            have hih := ih (rest ++ pushed) seen2 out2 h2 c
            have hpq := hQb pushed rfl c
            have h1 := countV_visit c (⟨n, d⟩ : State)
            have h3 := countM_visit c (⟨n, d⟩ : State)
            have h4 := countQ_cons_some c n d rest
            rw [countQ_append] at hih
            simp only [countV_append, countM_append, h1, h3, hV0 c, h4]
            omega
      · intro h c
        cases h
        have h1 : countV c [Event.visit ⟨n, d⟩] = if n.cid = c then 1 else 0 :=
          countV_visit c ⟨n, d⟩
        have h2 := countM_visit c (⟨n, d⟩ : State)
        have h3 := countQ_cons_some c n d rest
        rw [h1, h2, h3]
        omega

theorem bfsTraverse_visitBound {ε : Type} {o : Options ε} (hsk : o.skipDuplicates = true) :
    ∀ fuel root seen out, bfsTraverse o fuel root seen = some out →
      ∀ c, countV c out.evs ≤ countM c out.evs := by
  intro fuel root seen out
  unfold bfsTraverse
  by_cases hm : root.node.cid ∈ seen
  · rw [shouldSkip_mem hsk hm]
    simp only [Bool.true_or, if_pos rfl]
    intro h c
    cases h
    simp [countV, countM]
  · rw [shouldSkip_fresh hsk hm]
    simp only [Bool.false_or, Option.isSome_none]
    rw [if_neg (by decide)]
    rcases h2 : bfsLoop o fuel [(some root.node, root.depth)] (root.node.cid :: seen)
      with _ | out2
    · simp only [h2]
      intro h; cases h
    · simp only [h2]
      intro h
      cases h
      intro c
      have hih := bfsLoop_visitBound hsk fuel [(some root.node, root.depth)]
        (root.node.cid :: seen) out2 h2 c
      have h1 := countM_mark c root.node.cid
      have h3 := countQ_cons_some c root.node root.depth []
      have h4 : countQ c ([] : List (Option Node × Nat)) = 0 := rfl
      rw [h3, h4] at hih
      simp only [countV_append, countM_append, countV_mark, h1]
      omega

/-- Concrete outcome of pre-order DFS on the cyclic graph `R → A → R`
with suppression on. -/
def outCycPre : Out String :=
  ⟨[Event.visit ⟨rootCyc, 0⟩, Event.fetch "A", Event.mark "A",
    Event.visit ⟨mkNode "A" ["R"], 1⟩, Event.fetch "R", Event.mark "R",
    Event.visit ⟨rootCyc, 2⟩, Event.fetch "A"], ["R", "A"], none⟩

/-- Concrete outcome of post-order DFS on the cyclic graph. -/
def outCycPost : Out String :=
  ⟨[Event.fetch "A", Event.mark "A", Event.fetch "R", Event.mark "R", Event.fetch "A",
    Event.visit ⟨rootCyc, 2⟩, Event.visit ⟨mkNode "A" ["R"], 1⟩, Event.visit ⟨rootCyc, 0⟩],
   ["R", "A"], none⟩

/-- Concrete outcome of BFS on the cyclic graph. -/
def outCycBfs : Out String :=
  ⟨[Event.mark "R", Event.visit ⟨rootCyc, 0⟩, Event.fetch "A", Event.mark "A",
    Event.visit ⟨mkNode "A" ["R"], 1⟩, Event.fetch "R"], ["A", "R"], none⟩

/-- C1 (amended): with duplicate suppression enabled, each distinct
non-root identifier is passed to the visitor at most once in any
traversal order; the root's identifier is passed at most twice (the
root itself is visited without being recorded as seen in the DFS
orders, so one back-link to it can revisit it); under BFS every
identifier, the root's included, is visited at most once. -/
theorem c1_amended_visit_bounds {ε : Type} {o : Options ε} {root : Node} {fuel : Nat}
    {out : Out ε} (hsk : o.skipDuplicates = true) (h : Traverse root o fuel = some out) :
    (∀ c, c ≠ root.cid → countV c out.evs ≤ 1) ∧ countV root.cid out.evs ≤ 2 ∧
      (o.order = BFS → ∀ c, countV c out.evs ≤ 1) := by
  have hms := Traverse_markSpec h
  have hM1 : ∀ c, countM c out.evs ≤ 1 := hms.2.1
  revert h
  unfold Traverse
  split_ifs with h1 h2 h3 <;> intro h
  · have hb : ∀ c, countV c out.evs ≤ countM c out.evs + (if root.cid = c then 1 else 0) := by
      intro c
      have hx := dfsPreTraverse_visitBound hsk fuel ⟨root, 0⟩ [] out h c
      dsimp only at hx
      exact hx
    refine ⟨fun c hc => ?_, ?_, fun hbfs => ?_⟩
    · have ha := hb c
      rw [if_neg (Ne.symm hc)] at ha
      have := hM1 c
      omega
    · have ha := hb root.cid
      rw [if_pos rfl] at ha
      have := hM1 root.cid
      omega
    · rw [h1] at hbfs
      exact absurd hbfs (by decide)
  · have hb : ∀ c, countV c out.evs ≤ countM c out.evs + (if root.cid = c then 1 else 0) := by
      intro c
      have hx := dfsPostTraverse_visitBound hsk fuel ⟨root, 0⟩ [] out h c
      dsimp only at hx
      exact hx
    refine ⟨fun c hc => ?_, ?_, fun hbfs => ?_⟩
    · have ha := hb c
      rw [if_neg (Ne.symm hc)] at ha
      have := hM1 c
      omega
    · have ha := hb root.cid
      rw [if_pos rfl] at ha
      have := hM1 root.cid
      omega
    · rw [h2] at hbfs
      exact absurd hbfs (by decide)
  · have hb := bfsTraverse_visitBound hsk fuel ⟨root, 0⟩ [] out h
    refine ⟨fun c _ => (hb c).trans (hM1 c), ?_, fun _ c => (hb c).trans (hM1 c)⟩
    have := hb root.cid
    have := hM1 root.cid
    omega
  · have hb : ∀ c, countV c out.evs ≤ countM c out.evs + (if root.cid = c then 1 else 0) := by
      intro c
      have hx := dfsPreTraverse_visitBound hsk fuel ⟨root, 0⟩ [] out h c
      dsimp only at hx
      exact hx
    refine ⟨fun c hc => ?_, ?_, fun hbfs => ?_⟩
    · have ha := hb c
      rw [if_neg (Ne.symm hc)] at ha
      have := hM1 c
      omega
    · have ha := hb root.cid
      rw [if_pos rfl] at ha
      have := hM1 root.cid
      omega
    · exact absurd hbfs h3

/-- Witness for the amended C1 on the cyclic graph `R → A → R`
(pre-order DFS, suppression on). -/
theorem c1_amended_visit_bounds_witness :
    (optsCyc DFSPre).skipDuplicates = true ∧
      Traverse rootCyc (optsCyc DFSPre) 10 = some outCycPre ∧
      ((∀ c, c ≠ rootCyc.cid → countV c outCycPre.evs ≤ 1) ∧
        countV rootCyc.cid outCycPre.evs ≤ 2 ∧
        ((optsCyc DFSPre).order = BFS → ∀ c, countV c outCycPre.evs ≤ 1)) :=
  ⟨rfl, by rfl,
    @c1_amended_visit_bounds String (optsCyc DFSPre) rootCyc 10 outCycPre rfl (by rfl)⟩

/-- C2 (amended): under duplicate suppression, once a node identifier
has been inserted into the seen set it stays there for the rest of the
session, and any later link that resolves to a node with that
identifier is skipped silently: the retrieval capability is still
invoked (the node is re-fetched), but the result is discarded — the
visitor is not called on it and it is not descended into, in all three
orders (the DFS orders share `dfsDescend`; BFS expands children through
its queue loop). -/
theorem c2_amended_skip_semantics {ε : Type} (o : Options ε) (hsk : o.skipDuplicates = true) :
    (∀ (seen : List Cid) (l : Link) (n : Node), o.dag l.cid = Except.ok n → n.cid ∈ seen →
      getNode o seen l = ((none, none), seen, [Event.fetch l.cid])) ∧
    (∀ (rec : State → List Cid → Option (Out ε)) (seen : List Cid) (l : Link)
        (ls : List Link) (d : Nat) (n : Node), o.dag l.cid = Except.ok n → n.cid ∈ seen →
      dfsDescend rec o (l :: ls) d seen =
        match dfsDescend rec o ls d seen with
        | none => none
        | some out2 => some ⟨Event.fetch l.cid :: out2.evs, out2.seen, out2.res⟩) ∧
    (∀ (seen : List Cid) (l : Link) (ls : List Link) (d : Nat) (n : Node),
        o.dag l.cid = Except.ok n → n.cid ∈ seen →
      bfsEnqueue o d (l :: ls) seen =
        (Event.fetch l.cid :: (bfsEnqueue o d ls seen).1,
          (bfsEnqueue o d ls seen).2.1, (bfsEnqueue o d ls seen).2.2)) ∧
    (∀ (root : Node) (fuel : Nat) (out : Out ε), Traverse root o fuel = some out →
      ∀ c, 1 ≤ countM c out.evs → c ∈ out.seen) := by
  refine ⟨fun seen l n hd hm => getNode_ok_seen hsk hd hm,
    fun rec seen l ls d n hd hm => ?_, fun seen l ls d n hd hm => ?_,
    fun root fuel out h c hcM => ?_⟩
  · simp only [dfsDescend, getNode_ok_seen hsk hd hm]
    rcases h2 : dfsDescend rec o ls d seen with _ | out2 <;> simp [h2]
  · simp only [bfsEnqueue, getNode_ok_seen hsk hd hm]
    rcases he : bfsEnqueue o d ls seen with ⟨evs2, seen2, r⟩
    simp [he]
  · have hms := Traverse_markSpec h
    exact (hms.2.2 c).mpr (Or.inr hcM)

/-- Witness for the amended C2: on the shared-child graph, with `"A"`
already seen, resolving a link to `A` re-fetches it but skips it, and
in the full traversal every marked cid ends up in the final seen set. -/
theorem c2_amended_skip_semantics_witness :
    optsDup.skipDuplicates = true ∧
      optsDup.dag (Link.mk "A").cid = Except.ok (mkNode "A" []) ∧
      "A" ∈ ["A"] ∧
      getNode optsDup ["A"] (Link.mk "A") = ((none, none), ["A"], [Event.fetch "A"]) :=
  ⟨rfl, rfl, by decide,
    (c2_amended_skip_semantics optsDup rfl).1 ["A"] (Link.mk "A") (mkNode "A" []) rfl
      (by decide)⟩

/-- C10: the BFS driver records the root's identifier in the seen set
before visiting anything (its first event is the mark of the root's
cid), so a back-link to the root is skipped; the DFS orders do not
record the root at its own visit, so a back-link to the root fetches
and visits it a second time, after which it is recorded and further
encounters are skipped.  The concrete cyclic graph `R → A → R` with
suppression on shows the asymmetry: cid `"R"` is visited twice under
both DFS orders but once under BFS, and in every one of the three
traces the last encounter of an already-seen cid is a bare fetch with
no following mark or visit. -/
theorem c10_root_seen_asymmetry :
    (∀ (ε : Type) (o : Options ε) (fuel : Nat) (root : State) (seen : List Cid)
        (out : Out ε), o.skipDuplicates = true → root.node.cid ∉ seen →
        bfsTraverse o fuel root seen = some out →
        out.evs.head? = some (Event.mark root.node.cid)) ∧
    (∀ (ε : Type) (o : Options ε) (fuel : Nat) (s : State) (seen : List Cid) (out : Out ε),
        dfsPreTraverse o (fuel + 1) s seen = some out →
        out.evs.head? = some (Event.visit s)) ∧
    (Traverse rootCyc (optsCyc DFSPre) 10 = some outCycPre ∧
      countV "R" outCycPre.evs = 2) ∧
    (Traverse rootCyc (optsCyc DFSPost) 10 = some outCycPost ∧
      countV "R" outCycPost.evs = 2) ∧
    (Traverse rootCyc (optsCyc BFS) 10 = some outCycBfs ∧
      countV "R" outCycBfs.evs = 1) := by
  refine ⟨?_, ?_, ⟨by rfl, by rfl⟩, ⟨by rfl, by rfl⟩, ⟨by rfl, by rfl⟩⟩
  · intro ε o fuel root seen out hsk hm
    unfold bfsTraverse
    rw [shouldSkip_fresh hsk hm]
    simp only [Bool.false_or, Option.isSome_none]
    rw [if_neg (by decide)]
    rcases h2 : bfsLoop o fuel [(some root.node, root.depth)] (root.node.cid :: seen)
      with _ | out2
    · simp only [h2]
      intro h; cases h
    · simp only [h2]
      intro h
      cases h
      rfl
  · intro ε o fuel s seen out
    simp only [dfsPreTraverse, callFunc]
    rcases hv : o.func s with _ | e
    · rcases h2 : dfsDescend (dfsPreTraverse o fuel) o s.node.links s.depth seen with _ | out2
      · simp only [h2]
        intro h; cases h
      · simp only [h2]
        intro h
        cases h
        rfl
    · intro h
      cases h
      rfl

/-- Witness for C10's general clauses on the cyclic graph. -/
theorem c10_root_seen_asymmetry_witness :
    (optsCyc BFS).skipDuplicates = true ∧
      rootCyc.cid ∉ ([] : List Cid) ∧
      bfsTraverse (optsCyc BFS) 10 ⟨rootCyc, 0⟩ [] = some outCycBfs ∧
      outCycBfs.evs.head? = some (Event.mark rootCyc.cid) :=
  ⟨rfl, by decide, by rfl,
    c10_root_seen_asymmetry.1 String (optsCyc BFS) 10 ⟨rootCyc, 0⟩ [] outCycBfs rfl
      (by decide) (by rfl)⟩

/-! ### C4: the first visitor error is the last visit and the result -/

/-- The discipline of the visit sequence of one traversal span: the
visitor kept returning nil until, possibly at the last visited state,
it returned an error — in which case that exact error (wrapped as a
user error) is the span's result. -/
def VisitChain {ε : Type} (o : Options ε) : List State → Option (TravErr ε) → Prop
  | [], _ => True
  | s :: rest, res =>
    match o.func s with
    | none => VisitChain o rest res
    | some e => rest = [] ∧ res = some (TravErr.user e)

theorem VisitChain.of_none {ε : Type} {o : Options ε} :
    ∀ {v : List State}, VisitChain o v none → ∀ s ∈ v, o.func s = none := by
  intro v
  induction v with
  | nil => intro _ s hs; cases hs
  | cons s0 rest ih =>
    intro h s hs
    rcases hv : o.func s0 with _ | e
    · rw [VisitChain, hv] at h
      rcases List.mem_cons.mp hs with hs | hs
      · subst hs; exact hv
      · exact ih h s hs
    · rw [VisitChain, hv] at h
      cases h.2
  
theorem VisitChain.append_left {ε : Type} {o : Options ε} {v2 : List State}
    {res : Option (TravErr ε)} :
    ∀ {v1 : List State}, (∀ s ∈ v1, o.func s = none) → VisitChain o v2 res →
      VisitChain o (v1 ++ v2) res := by
  intro v1
  induction v1 with
  | nil => intro _ h2; exact h2
  | cons s0 rest ih =>
    intro h1 h2
    have hv : o.func s0 = none := h1 s0 (List.mem_cons_self s0 rest)
    rw [List.cons_append, VisitChain, hv]
    exact ih (fun s hs => h1 s (List.mem_cons_of_mem s0 hs)) h2

theorem visitStates_append (a b : List Event) :
    visitStates (a ++ b) = visitStates a ++ visitStates b := by
  simp [visitStates, List.filterMap_append]

theorem getNode_visitStates {ε : Type} (o : Options ε) (seen : List Cid) (l : Link) :
    visitStates (getNode o seen l).2.2 = [] := by
  cases hd : o.dag l.cid with
  | error e =>
    cases herr : o.errFunc with
    | none => rw [getNode_dag_error_noRec herr hd]; rfl
    | some ef => rw [getNode_dag_error_rec herr hd]; rfl
  | ok n =>
    cases hsk : o.skipDuplicates with
    | false => rw [getNode_ok_noskip hsk hd]; rfl
    | true =>
      by_cases hm : n.cid ∈ seen
      · rw [getNode_ok_seen hsk hd hm]; rfl
      · rw [getNode_ok_fresh hsk hd hm]; rfl

theorem dfsDescend_visitChain {ε : Type} {rec : State → List Cid → Option (Out ε)}
    {o : Options ε}
    (hrec : ∀ s sn out, rec s sn = some out → VisitChain o (visitStates out.evs) out.res) :
    ∀ ls d seen out, dfsDescend rec o ls d seen = some out →
      VisitChain o (visitStates out.evs) out.res := by
  intro ls
  induction ls with
  | nil =>
    intro d seen out h
    cases h
    trivial
  | cons l ls ih =>
    intro d seen out
    rcases hg : getNode o seen l with ⟨⟨node?, err⟩, seen1, evs1⟩
    have hvs1 : visitStates evs1 = [] := by
      have h0 := getNode_visitStates o seen l
      rw [hg] at h0
      exact h0
    simp only [dfsDescend, hg]
    rcases err with _ | e
    · rcases node? with _ | n
      · rcases h2 : dfsDescend rec o ls d seen1 with _ | out2
        · simp only [h2]
          intro h; cases h
        · simp only [h2]
          intro h
          cases h
          have := ih d seen1 out2 h2
          dsimp only
          rw [visitStates_append, hvs1, List.nil_append]
          exact this
      · rcases h1 : rec ⟨n, d + 1⟩ seen1 with _ | out1
        · simp only [h1]
          intro h; cases h
        · obtain ⟨evs2, seen2, res2⟩ := out1
          have hc1 := hrec _ _ _ h1
          dsimp only at hc1
          rcases res2 with _ | e
          · rcases h2 : dfsDescend rec o ls d seen2 with _ | out2
            · simp only [h1, h2]
              intro h; cases h
            · simp only [h1, h2]
              intro h
              cases h
              dsimp only
              rw [List.append_assoc, visitStates_append, hvs1, List.nil_append,
                visitStates_append]
              exact VisitChain.append_left (VisitChain.of_none hc1) (ih d seen2 out2 h2)
          · simp only [h1]
            intro h
            cases h
            dsimp only
            rw [visitStates_append, hvs1, List.nil_append]
            exact hc1
    · intro h
      cases h
      dsimp only
      rw [hvs1]
      trivial

theorem dfsPreTraverse_visitChain {ε : Type} {o : Options ε} :
    ∀ fuel s seen out, dfsPreTraverse o fuel s seen = some out →
      VisitChain o (visitStates out.evs) out.res := by
  intro fuel
  induction fuel with
  | zero => intro s seen out h; cases h
  | succ fuel ih =>
    intro s seen out
    simp only [dfsPreTraverse, callFunc]
    rcases hv : o.func s with _ | e
    · rcases h2 : dfsDescend (dfsPreTraverse o fuel) o s.node.links s.depth seen with _ | out2
      · simp only [h2]
        intro h; cases h
      · simp only [h2]
        intro h
        cases h
        dsimp only
        have : visitStates ([Event.visit s] ++ out2.evs) = s :: visitStates out2.evs := by
          rw [visitStates_append]; rfl
        rw [this, VisitChain, hv]
        exact dfsDescend_visitChain (fun s sn out => ih s sn out) s.node.links s.depth
          seen out2 h2
    · intro h
      cases h
      dsimp only
      show VisitChain o [s] (some (TravErr.user e))
      rw [VisitChain, hv]
      exact ⟨rfl, rfl⟩

theorem dfsPostTraverse_visitChain {ε : Type} {o : Options ε} :
    ∀ fuel s seen out, dfsPostTraverse o fuel s seen = some out →
      VisitChain o (visitStates out.evs) out.res := by
  intro fuel
  induction fuel with
  | zero => intro s seen out h; cases h
  | succ fuel ih =>
    intro s seen out
    simp only [dfsPostTraverse, callFunc]
    rcases h2 : dfsDescend (dfsPostTraverse o fuel) o s.node.links s.depth seen with _ | out1
    · simp only [h2]
      intro h; cases h
    · have hc1 := dfsDescend_visitChain (fun s sn out => ih s sn out) s.node.links s.depth
        seen out1 h2
      obtain ⟨evs2, seen2, res2⟩ := out1
      dsimp only at hc1
      simp only [h2]
      rcases res2 with _ | e
      · intro h
        cases h
        dsimp only
        rw [visitStates_append]
        refine VisitChain.append_left (VisitChain.of_none hc1) ?_
        rcases hv : o.func s with _ | e
        · show VisitChain o [s] _
          rw [VisitChain, hv]
          trivial
        · show VisitChain o [s] _
          rw [VisitChain, hv]
          exact ⟨rfl, rfl⟩
      · intro h
        cases h
        exact hc1

theorem bfsEnqueue_visitStates {ε : Type} {o : Options ε} :
    ∀ ls d seen, visitStates (bfsEnqueue o d ls seen).1 = [] := by
  intro ls
  induction ls with
  | nil => intro d seen; rfl
  | cons l ls ih =>
    intro d seen
    rcases hg : getNode o seen l with ⟨⟨node?, err⟩, seen1, evs1⟩
    have hvs1 : visitStates evs1 = [] := by
      have h0 := getNode_visitStates o seen l
      rw [hg] at h0
      exact h0
    simp only [bfsEnqueue, hg]
    rcases err with _ | e
    · rcases node? with _ | n
      · rcases he : bfsEnqueue o d ls seen1 with ⟨evs2, seen2, r⟩
        have h1 := ih d seen1
        rw [he] at h1
        simp only [he]
        rw [visitStates_append, hvs1, List.nil_append]
        exact h1
      · rcases he : bfsEnqueue o d ls seen1 with ⟨evs2, seen2, r⟩
        have h1 := ih d seen1
        rw [he] at h1
        simp only [he]
        cases r <;> (rw [visitStates_append, hvs1, List.nil_append]; exact h1)
    · exact hvs1

theorem bfsLoop_visitChain {ε : Type} {o : Options ε} :
    ∀ fuel q seen out, bfsLoop o fuel q seen = some out →
      VisitChain o (visitStates out.evs) out.res := by
  intro fuel
  induction fuel with
  | zero => intro q seen out h; cases h
  | succ fuel ih =>
    intro q seen out
    match q with
    | [] =>
      intro h
      cases h
      trivial
    | (none, d) :: rest =>
      intro h
      cases h
      trivial
    | (some n, d) :: rest =>
      simp only [bfsLoop, callFunc]
      rcases hv : o.func ⟨n, d⟩ with _ | e
      · rcases he : bfsEnqueue o d n.links seen with ⟨evs2, seen2, r⟩
        have hvs2 : visitStates evs2 = [] := by
          have h0 := bfsEnqueue_visitStates (o := o) n.links d seen
          rw [he] at h0
          exact h0
        simp only [he]
        rcases r with e | pushed
        · intro h
          cases h
          dsimp only
          rw [visitStates_append, hvs2]
          show VisitChain o [⟨n, d⟩] _
          rw [VisitChain, hv]
          trivial
        · rcases h2 : bfsLoop o fuel (rest ++ pushed) seen2 with _ | out2
          · simp only [h2]
            intro h; cases h
          · simp only [h2]
            intro h
            cases h
            dsimp only
            rw [List.append_assoc, visitStates_append, visitStates_append, hvs2,
              List.nil_append]
            show VisitChain o (⟨n, d⟩ :: visitStates out2.evs) _
            rw [VisitChain, hv]
            exact ih (rest ++ pushed) seen2 out2 h2
      · intro h
        cases h
        dsimp only
        show VisitChain o [⟨n, d⟩] _
        rw [VisitChain, hv]
        exact ⟨rfl, rfl⟩

theorem bfsTraverse_visitChain {ε : Type} {o : Options ε} {fuel : Nat} {root : State}
    {seen : List Cid} {out : Out ε} (h : bfsTraverse o fuel root seen = some out) :
    VisitChain o (visitStates out.evs) out.res := by
  revert h
  unfold bfsTraverse
  rcases hs : shouldSkip o seen root.node with ⟨⟨skip, err⟩, seen1, evs1⟩
  have hvs1 : visitStates evs1 = [] := by
    have h0 : visitStates (shouldSkip o seen root.node).2.2 = [] := by
      unfold shouldSkip
      split
      · split
        · rfl
        · rfl
      · rfl
    rw [hs] at h0
    exact h0
  simp only [hs]
  by_cases hc : (skip || err.isSome) = true
  · rw [if_pos hc]
    intro h
    cases h
    dsimp only
    rw [hvs1]
    trivial
  · rw [if_neg hc]
    rcases h2 : bfsLoop o fuel [(some root.node, root.depth)] seen1 with _ | out2
    · simp only [h2]
      intro h; cases h
    · simp only [h2]
      intro h
      cases h
      dsimp only
      rw [visitStates_append, hvs1, List.nil_append]
      exact bfsLoop_visitChain fuel [(some root.node, root.depth)] seen1 out2 h2

theorem Traverse_visitChain {ε : Type} {o : Options ε} {root : Node} {fuel : Nat}
    {out : Out ε} (h : Traverse root o fuel = some out) :
    VisitChain o (visitStates out.evs) out.res := by
  revert h
  unfold Traverse
  split_ifs <;> intro h
  · exact dfsPreTraverse_visitChain fuel ⟨root, 0⟩ [] out h
  · exact dfsPostTraverse_visitChain fuel ⟨root, 0⟩ [] out h
  · exact bfsTraverse_visitChain h
  · exact dfsPreTraverse_visitChain fuel ⟨root, 0⟩ [] out h

theorem VisitChain.locate {ε : Type} {o : Options ε} {res : Option (TravErr ε)} :
    ∀ {v : List State} {i : Nat} {s : State} {e : ε}, VisitChain o v res →
      v[i]? = some s → o.func s = some e →
      v.length = i + 1 ∧ res = some (TravErr.user e) := by
  intro v
  induction v with
  | nil =>
    intro i s e _ hs
    simp at hs
  | cons s0 rest ih =>
    intro i s e hch hs he
    rcases hv : o.func s0 with _ | e0
    · rw [VisitChain, hv] at hch
      match i, hs with
      | 0, hs =>
        simp at hs
        subst hs
        rw [hv] at he
        cases he
      | i + 1, hs =>
        simp only [List.getElem?_cons_succ] at hs
        have := ih hch hs he
        simp [this.1, this.2]
    · rw [VisitChain, hv] at hch
      obtain ⟨hrest, hres⟩ := hch
      subst hrest
      match i, hs with
      | 0, hs =>
        simp at hs
        subst hs
        rw [hv] at he
        cases he
        exact ⟨rfl, hres⟩
      | i + 1, hs =>
        simp at hs

/-- C4: if the visitor returns a non-nil error on the k-th state it is
given (here k = i + 1, i.e. the state at zero-based index i of the
visit sequence), then the traversal invoked the visitor exactly k
times in total — the erroring visit is the last one — and `Traverse`
returns exactly that error value, in every order. -/
theorem c4_visitor_error_is_last_and_returned {ε : Type} {o : Options ε} {root : Node}
    {fuel : Nat} {out : Out ε} {i : Nat} {s : State} {e : ε}
    (h : Traverse root o fuel = some out)
    (hs : (visitStates out.evs)[i]? = some s) (he : o.func s = some e) :
    (visitStates out.evs).length = i + 1 ∧ out.res = some (TravErr.user e) :=
  VisitChain.locate (Traverse_visitChain h) hs he

/-- Visitor that fails on node `A` of the example graph. -/
def optsErr : Options String :=
  ⟨dagRABC, DFSPre, fun s => if s.node.cid = "A" then some "boom" else none, none, false⟩

/-- Concrete outcome of the failing-visitor traversal: two visits, then
the visitor's error is returned. -/
def outErr : Out String :=
  ⟨[Event.visit ⟨rootRABC, 0⟩, Event.fetch "A", Event.visit ⟨mkNode "A" ["C"], 1⟩],
   [], some (TravErr.user "boom")⟩

/-- Witness for C4: the visitor errors on the second visited node, so
there are exactly two visits and the result is that error. -/
theorem c4_visitor_error_is_last_and_returned_witness :
    Traverse rootRABC optsErr 10 = some outErr ∧
      (visitStates outErr.evs)[1]? = some ⟨mkNode "A" ["C"], 1⟩ ∧
      optsErr.func ⟨mkNode "A" ["C"], 1⟩ = some "boom" ∧
      ((visitStates outErr.evs).length = 1 + 1 ∧
        outErr.res = some (TravErr.user "boom")) :=
  ⟨by rfl, by rfl, by rfl,
    @c4_visitor_error_is_last_and_returned String optsErr rootRABC 10 outErr 1
      ⟨mkNode "A" ["C"], 1⟩ "boom" (by rfl) (by rfl) (by rfl)⟩

/-! ### C5: a nil recovery function behaves as the identity recovery -/

theorem getNode_errFunc_none_eq {ε : Type} (o : Options ε) (seen : List Cid) (l : Link) :
    getNode { o with errFunc := none } seen l =
      getNode { o with errFunc := some fun e => some e } seen l := by
  cases hd : o.dag l.cid with
  | error e =>
    rw [@getNode_dag_error_noRec ε { o with errFunc := none } l e rfl hd seen,
      @getNode_dag_error_rec ε { o with errFunc := some fun e => some e } l e
        (fun e => some e) rfl hd seen]
  | ok n =>
    by_cases hsk : o.skipDuplicates = true
    · by_cases hm : n.cid ∈ seen
      · rw [@getNode_ok_seen ε { o with errFunc := none } l n hsk hd seen hm,
          @getNode_ok_seen ε { o with errFunc := some fun e => some e } l n hsk hd seen hm]
      · rw [@getNode_ok_fresh ε { o with errFunc := none } l n hsk hd seen hm,
          @getNode_ok_fresh ε { o with errFunc := some fun e => some e } l n hsk hd seen hm]
    · have hsk2 : o.skipDuplicates = false := by
        cases hb : o.skipDuplicates
        · rfl
        · exact absurd hb hsk
      rw [@getNode_ok_noskip ε { o with errFunc := none } l n hsk2 hd seen,
        @getNode_ok_noskip ε { o with errFunc := some fun e => some e } l n hsk2 hd seen]

/-- C5: with a nil recovery function, `Traverse` is extensionally equal
to `Traverse` with the identity recovery function (same events, same
seen set, same result, at every fuel), and a link-resolution failure
yields the retrieval error itself, which each driver then returns,
aborting after the visits already made. -/
theorem c5_nil_errfunc_defaults_to_identity {ε : Type} (o : Options ε)
    (ho : o.errFunc = none) :
    (∀ (root : Node) (fuel : Nat),
      Traverse root o fuel = Traverse root { o with errFunc := some fun e => some e } fuel) ∧
    (∀ (seen : List Cid) (l : Link) (e : ε), o.dag l.cid = Except.error e →
      getNode o seen l = ((none, some e), seen, [Event.fetch l.cid])) := by
  have hget : ∀ sn l, getNode o sn l =
      getNode { o with errFunc := some fun e => some e } sn l := by
    intro sn l
    have h1 : getNode o sn l = getNode { o with errFunc := none } sn l :=
      @getNode_ext ε o { o with errFunc := none } rfl ho rfl sn l
    rw [h1, getNode_errFunc_none_eq]
  constructor
  · intro root fuel
    unfold Traverse
    dsimp only
    split_ifs
    · exact dfsPreTraverse_congr hget rfl fuel ⟨root, 0⟩ []
    · exact dfsPostTraverse_congr hget rfl fuel ⟨root, 0⟩ []
    · exact bfsTraverse_congr hget rfl rfl fuel ⟨root, 0⟩ []
    · exact dfsPreTraverse_congr hget rfl fuel ⟨root, 0⟩ []
  · intro seen l e hd
    exact getNode_dag_error_noRec ho hd seen

/-- A graph whose node `B` cannot be fetched. -/
def dagFail : Cid → Except String Node := fun c =>
  if c = "A" then Except.ok (mkNode "A" [])
  else if c = "B" then Except.error "nofetch"
  else Except.ok (mkNode c [])

def rootFail : Node := mkNode "R" ["A", "B", "C"]

def optsFail : Options String := ⟨dagFail, DFSPre, fun _ => none, none, false⟩

/-- Witness for C5 on the failing-fetch graph. -/
theorem c5_nil_errfunc_defaults_to_identity_witness :
    optsFail.errFunc = none ∧
      Traverse rootFail optsFail 10 =
        Traverse rootFail { optsFail with errFunc := some fun e => some e } 10 ∧
      optsFail.dag (Link.mk "B").cid = Except.error "nofetch" ∧
      getNode optsFail [] (Link.mk "B") = ((none, some "nofetch"), [], [Event.fetch "B"]) :=
  ⟨rfl, (c5_nil_errfunc_defaults_to_identity optsFail rfl).1 rootFail 10, by rfl,
    (c5_nil_errfunc_defaults_to_identity optsFail rfl).2 [] (Link.mk "B") "nofetch" (by rfl)⟩

/-- C6: when a link-resolution fails with a recovery function in place,
the recovery function's verdict replaces the retrieval error.  If it
returns nil, the failed node and its subtree are skipped: the DFS and
BFS child loops continue with the remaining sibling links (and, in
BFS, all queued nodes are still processed); if it returns a non-nil
error, the child loop stops at once and hands that error up, so the
traversal aborts with the recovery function's error. -/
theorem c6_recovery_skip_or_abort {ε : Type} (o : Options ε) {ef : ε → Option ε}
    (ho : o.errFunc = some ef) :
    (∀ (seen : List Cid) (l : Link) (e : ε), o.dag l.cid = Except.error e →
      getNode o seen l = ((none, ef e), seen, [Event.fetch l.cid])) ∧
    (∀ (rec : State → List Cid → Option (Out ε)) (seen : List Cid) (l : Link)
        (ls : List Link) (d : Nat) (e : ε), o.dag l.cid = Except.error e → ef e = none →
      dfsDescend rec o (l :: ls) d seen =
        match dfsDescend rec o ls d seen with
        | none => none
        | some out2 => some ⟨Event.fetch l.cid :: out2.evs, out2.seen, out2.res⟩) ∧
    (∀ (rec : State → List Cid → Option (Out ε)) (seen : List Cid) (l : Link)
        (ls : List Link) (d : Nat) (e e' : ε), o.dag l.cid = Except.error e →
        ef e = some e' →
      dfsDescend rec o (l :: ls) d seen =
        some ⟨[Event.fetch l.cid], seen, some (TravErr.user e')⟩) ∧
    (∀ (seen : List Cid) (l : Link) (ls : List Link) (d : Nat) (e : ε),
        o.dag l.cid = Except.error e → ef e = none →
      bfsEnqueue o d (l :: ls) seen =
        (Event.fetch l.cid :: (bfsEnqueue o d ls seen).1,
          (bfsEnqueue o d ls seen).2.1, (bfsEnqueue o d ls seen).2.2)) ∧
    (∀ (seen : List Cid) (l : Link) (ls : List Link) (d : Nat) (e e' : ε),
        o.dag l.cid = Except.error e → ef e = some e' →
      bfsEnqueue o d (l :: ls) seen = ([Event.fetch l.cid], seen, Except.error e')) := by
  refine ⟨fun seen l e hd => getNode_dag_error_rec ho hd seen,
    fun rec seen l ls d e hd he => ?_, fun rec seen l ls d e e' hd he => ?_,
    fun seen l ls d e hd he => ?_, fun seen l ls d e e' hd he => ?_⟩
  · simp only [dfsDescend, getNode_dag_error_rec ho hd, he]
    rcases h2 : dfsDescend rec o ls d seen with _ | out2 <;> simp [h2]
  · simp only [dfsDescend, getNode_dag_error_rec ho hd, he]
  · simp only [bfsEnqueue, getNode_dag_error_rec ho hd, he]
    rcases h2 : bfsEnqueue o d ls seen with ⟨evs2, seen2, r⟩
    simp [h2]
  · simp only [bfsEnqueue, getNode_dag_error_rec ho hd, he]

/-- The failing-fetch graph with a recovery function that skips. -/
def optsRecSkip : Options String :=
  ⟨dagFail, DFSPre, fun _ => none, some fun _ => none, false⟩

/-- The failing-fetch graph with a recovery function that escalates. -/
def optsRecAbort : Options String :=
  ⟨dagFail, DFSPre, fun _ => none, some fun e => some ("wrapped " ++ e), false⟩

/-- Witness for C6: on the failing link `B`, the skipping recovery lets
the child loop continue, and the escalating recovery aborts the child
loop with its own error. -/
theorem c6_recovery_skip_or_abort_witness :
    optsRecSkip.errFunc = some (fun _ => none) ∧
      optsRecSkip.dag (Link.mk "B").cid = Except.error "nofetch" ∧
      getNode optsRecSkip [] (Link.mk "B") = ((none, none), [], [Event.fetch "B"]) ∧
      optsRecAbort.errFunc = some (fun e => some ("wrapped " ++ e)) ∧
      dfsDescend (dfsPreTraverse optsRecAbort 9) optsRecAbort
          [Link.mk "B", Link.mk "C"] 0 [] =
        some ⟨[Event.fetch "B"], [], some (TravErr.user "wrapped nofetch")⟩ :=
  ⟨rfl, by rfl, (c6_recovery_skip_or_abort optsRecSkip rfl).1 [] (Link.mk "B") "nofetch"
      (by rfl),
    rfl,
    (c6_recovery_skip_or_abort optsRecAbort rfl).2.2.1 (dfsPreTraverse optsRecAbort 9) []
      (Link.mk "B") [Link.mk "C"] 0 "nofetch" "wrapped nofetch" (by rfl) (by rfl)⟩

/-! ### C7: the BFS dequeue-inconsistency branch -/

theorem dfsDescend_no_internal {ε : Type} {rec : State → List Cid → Option (Out ε)}
    {o : Options ε}
    (hrec : ∀ s sn out, rec s sn = some out → out.res ≠ some TravErr.internal) :
    ∀ ls d seen out, dfsDescend rec o ls d seen = some out →
      out.res ≠ some TravErr.internal := by
  intro ls
  induction ls with
  | nil =>
    intro d seen out h
    cases h
    simp
  | cons l ls ih =>
    intro d seen out
    rcases hg : getNode o seen l with ⟨⟨node?, err⟩, seen1, evs1⟩
    simp only [dfsDescend, hg]
    rcases err with _ | e
    · rcases node? with _ | n
      · rcases h2 : dfsDescend rec o ls d seen1 with _ | out2
        · simp only [h2]
          intro h; cases h
        · simp only [h2]
          intro h
          cases h
          exact ih d seen1 out2 h2
      · rcases h1 : rec ⟨n, d + 1⟩ seen1 with _ | out1
        · simp only [h1]
          intro h; cases h
        · obtain ⟨evs2, seen2, res2⟩ := out1
          have hni := hrec _ _ _ h1
          dsimp only at hni
          rcases res2 with _ | e
          · rcases h2 : dfsDescend rec o ls d seen2 with _ | out2
            · simp only [h1, h2]
              intro h; cases h
            · simp only [h1, h2]
              intro h
              cases h
              exact ih d seen2 out2 h2
          · simp only [h1]
            intro h
            cases h
            simpa using hni
    · intro h
      cases h
      simp

theorem dfsPreTraverse_no_internal {ε : Type} {o : Options ε} :
    ∀ fuel s seen out, dfsPreTraverse o fuel s seen = some out →
      out.res ≠ some TravErr.internal := by
  intro fuel
  induction fuel with
  | zero => intro s seen out h; cases h
  | succ fuel ih =>
    intro s seen out
    simp only [dfsPreTraverse, callFunc]
    rcases hv : o.func s with _ | e
    · rcases h2 : dfsDescend (dfsPreTraverse o fuel) o s.node.links s.depth seen with _ | out2
      · simp only [h2]
        intro h; cases h
      · simp only [h2]
        intro h
        cases h
        exact dfsDescend_no_internal (fun s sn out => ih s sn out) s.node.links s.depth
          seen out2 h2
    · intro h
      cases h
      simp

theorem dfsPostTraverse_no_internal {ε : Type} {o : Options ε} :
    ∀ fuel s seen out, dfsPostTraverse o fuel s seen = some out →
      out.res ≠ some TravErr.internal := by
  intro fuel
  induction fuel with
  | zero => intro s seen out h; cases h
  | succ fuel ih =>
    intro s seen out
    simp only [dfsPostTraverse, callFunc]
    rcases h2 : dfsDescend (dfsPostTraverse o fuel) o s.node.links s.depth seen with _ | out1
    · simp only [h2]
      intro h; cases h
    · have hni := dfsDescend_no_internal (fun s sn out => ih s sn out) s.node.links s.depth
        seen out1 h2
      obtain ⟨evs2, seen2, res2⟩ := out1
      dsimp only at hni
      simp only [h2]
      rcases res2 with _ | e
      · intro h
        cases h
        rcases hv : o.func s with _ | e <;> simp [hv]
      · intro h
        cases h
        simpa using hni

theorem bfsEnqueue_pushed_some {ε : Type} {o : Options ε} :
    ∀ ls d seen evs seen' pushed,
      bfsEnqueue o d ls seen = (evs, seen', Except.ok pushed) →
      ∀ p ∈ pushed, p.1.isSome := by
  intro ls
  induction ls with
  | nil =>
    intro d seen evs seen' pushed h p hp
    cases h
    cases hp
  | cons l ls ih =>
    intro d seen evs seen' pushed
    rcases hg : getNode o seen l with ⟨⟨node?, err⟩, seen1, evs1⟩
    simp only [bfsEnqueue, hg]
    rcases err with _ | e
    · rcases node? with _ | n
      · rcases he : bfsEnqueue o d ls seen1 with ⟨evs2, seen2, r⟩
        simp only [he]
        rcases r with e | pushed2
        · intro h; cases h
        · intro h p hp
          cases h
          exact ih d seen1 _ _ _ he p hp
      · rcases he : bfsEnqueue o d ls seen1 with ⟨evs2, seen2, r⟩
        simp only [he]
        rcases r with e | pushed2
        · intro h; cases h
        · intro h p hp
          cases h
          rcases List.mem_cons.mp hp with hp | hp
          · subst hp; rfl
          · exact ih d seen1 _ _ _ he p hp
    · intro h; cases h

theorem bfsLoop_no_internal {ε : Type} {o : Options ε} :
    ∀ fuel q seen out, (∀ p ∈ q, p.1.isSome) → bfsLoop o fuel q seen = some out →
      out.res ≠ some TravErr.internal := by
  intro fuel
  induction fuel with
  | zero => intro q seen out _ h; cases h
  | succ fuel ih =>
    intro q seen out hq
    match q with
    | [] =>
      intro h
      cases h
      simp
    | (none, d) :: rest =>
      exact absurd (hq (none, d) (List.mem_cons_self _ _)) (by simp)
    | (some n, d) :: rest =>
      simp only [bfsLoop, callFunc]
      rcases hv : o.func ⟨n, d⟩ with _ | e
      · rcases he : bfsEnqueue o d n.links seen with ⟨evs2, seen2, r⟩
        simp only [he]
        rcases r with e | pushed
        · intro h
          cases h
          simp
        · rcases h2 : bfsLoop o fuel (rest ++ pushed) seen2 with _ | out2
          · simp only [h2]
            intro h; cases h
          · simp only [h2]
            intro h
            cases h
            refine ih (rest ++ pushed) seen2 out2 (fun p hp => ?_) h2
            rcases List.mem_append.mp hp with hp | hp
            · exact hq p (List.mem_cons_of_mem _ hp)
            · exact bfsEnqueue_pushed_some n.links d seen evs2 seen2 pushed he p hp
      · intro h
        cases h
        simp

theorem bfsTraverse_no_internal {ε : Type} {o : Options ε} :
    ∀ fuel root seen out, bfsTraverse o fuel root seen = some out →
      out.res ≠ some TravErr.internal := by
  intro fuel root seen out
  unfold bfsTraverse
  rcases hs : shouldSkip o seen root.node with ⟨⟨skip, err⟩, seen1, evs1⟩
  simp only [hs]
  by_cases hc : (skip || err.isSome) = true
  · rw [if_pos hc]
    intro h
    cases h
    rcases err with _ | e <;> simp
  · rw [if_neg hc]
    rcases h2 : bfsLoop o fuel [(some root.node, root.depth)] seen1 with _ | out2
    · simp only [h2]
      intro h; cases h
    · simp only [h2]
      intro h
      cases h
      refine bfsLoop_no_internal fuel [(some root.node, root.depth)] seen1 out2 ?_ h2
      intro p hp
      rcases List.mem_cons.mp hp with hp | hp
      · subst hp; rfl
      · cases hp

/-- C7: dequeuing a state with no node while the queue was non-empty
makes `bfsTraverse` return the engine's dedicated internal-consistency
error; that error is a different value from every caller-domain
(visitor, retrieval, recovery) error; and the branch is unreachable
from `Traverse`: because the root state always carries a node and
every enqueued child is a node `getNode` actually produced, every
dequeued state carries a node, so no traversal result is the internal
error. -/
theorem c7_internal_error_unreachable {ε : Type} :
    (∀ (o : Options ε) (fuel d : Nat) (rest : List (Option Node × Nat)) (seen : List Cid),
      bfsLoop o (fuel + 1) ((none, d) :: rest) seen =
        some ⟨[], seen, some TravErr.internal⟩) ∧
    (∀ e : ε, (TravErr.internal : TravErr ε) ≠ TravErr.user e) ∧
    (∀ (o : Options ε) (root : Node) (fuel : Nat) (out : Out ε),
      Traverse root o fuel = some out → out.res ≠ some TravErr.internal) := by
  refine ⟨fun o fuel d rest seen => rfl, ?_, ?_⟩
  · intro e h
    cases h
  intro o root fuel out
  unfold Traverse
  split_ifs <;> intro h
  · exact dfsPreTraverse_no_internal fuel ⟨root, 0⟩ [] out h
  · exact dfsPostTraverse_no_internal fuel ⟨root, 0⟩ [] out h
  · exact bfsTraverse_no_internal fuel ⟨root, 0⟩ [] out h
  · exact dfsPreTraverse_no_internal fuel ⟨root, 0⟩ [] out h

/-- The outcome of BFS without suppression on the example graph. -/
def outBfsRABC : Out String :=
  ⟨[Event.visit ⟨rootRABC, 0⟩, Event.fetch "A", Event.fetch "B",
    Event.visit ⟨mkNode "A" ["C"], 1⟩, Event.fetch "C",
    Event.visit ⟨mkNode "B" [], 1⟩, Event.visit ⟨mkNode "C" [], 2⟩], [], none⟩

/-- Witness for C7: a poisoned queue returns the internal error, and the
example traversal's result is not the internal error. -/
theorem c7_internal_error_unreachable_witness :
    bfsLoop (optsRABC BFS false) 5 [((none : Option Node), 0)] [] =
        some ⟨[], [], some TravErr.internal⟩ ∧
      (TravErr.internal : TravErr String) ≠ TravErr.user "boom" ∧
      Traverse rootRABC (optsRABC BFS false) 10 = some outBfsRABC ∧
      outBfsRABC.res ≠ some TravErr.internal :=
  ⟨c7_internal_error_unreachable.1 (optsRABC BFS false) 4 0 [] [],
    c7_internal_error_unreachable.2.1 "boom",
    by rfl,
    c7_internal_error_unreachable.2.2 (optsRABC BFS false) rootRABC 10 outBfsRABC
      (by rfl)⟩

/-! ### C9: termination under duplicate suppression -/

/-- The number of cids of `S` not yet seen. -/
def unseenCount (S seen : List Cid) : Nat :=
  (S.filter fun c => !seen.contains c).length

theorem unseenCount_le (S seen : List Cid) : unseenCount S seen ≤ S.length :=
  List.length_filter_le _ _

theorem unseenCount_mono {seen seen' : List Cid} (S : List Cid) (h : seen <:+ seen') :
    unseenCount S seen' ≤ unseenCount S seen := by
  refine (List.monotone_filter_right S fun a ha => ?_).length_le
  simp only [Bool.not_eq_true'] at ha ⊢
  rcases hb : seen.contains a with _ | _
  · rfl
  · exfalso
    have h2 : seen'.elem a = true := List.elem_iff.mpr (h.subset (List.elem_iff.mp hb))
    have h3 : seen'.elem a = false := ha
    rw [h2] at h3
    cases h3

theorem unseenCount_drop {c : Cid} {seen : List Cid} (hcs : c ∉ seen) :
    ∀ {S : List Cid}, c ∈ S → unseenCount S (c :: seen) + 1 ≤ unseenCount S seen := by
  intro S
  induction S with
  | nil => intro h; cases h
  | cons a S ih =>
    intro hc
    by_cases hac : a = c
    · subst hac
      have h2 : (seen.contains a) = false := by
        rcases hb : seen.contains a with _ | _
        · rfl
        · exact absurd (List.elem_iff.mp hb) hcs
      have h3 := unseenCount_mono S (List.suffix_cons a seen)
      unfold unseenCount at h3 ⊢
      simp only [List.filter_cons]
      have hc1 : ((a :: seen).contains a) = true := by
        simp [List.contains_cons]
      rw [hc1, h2]
      rw [if_neg (by decide : ¬((!(true : Bool)) = true)),
        if_pos (by decide : (!(false : Bool)) = true)]
      simp only [List.length_cons]
      omega
    · have hcS : c ∈ S := by
        rcases List.mem_cons.mp hc with h | h
        · exact absurd h.symm hac
        · exact h
      have hbeq : (a == c) = false := beq_eq_false_iff_ne.mpr hac
      have hsame : ((c :: seen).contains a) = (seen.contains a) := by
        rw [List.contains_cons, hbeq, Bool.false_or]
      have ihc := ih hcS
      unfold unseenCount at ihc ⊢
      simp only [List.filter_cons, hsame]
      rcases hb : seen.contains a with _ | _
      · rw [if_pos (by decide : (!(false : Bool)) = true),
          if_pos (by decide : (!(false : Bool)) = true)]
        simp only [List.length_cons]
        omega
      · rw [if_neg (by decide : ¬((!(true : Bool)) = true)),
          if_neg (by decide : ¬((!(true : Bool)) = true))]
        omega

theorem dfsDescend_total {ε : Type} {rec : State → List Cid → Option (Out ε)}
    {o : Options ε} {S : List Cid} (hsk : o.skipDuplicates = true)
    (hS : ∀ c n, o.dag c = Except.ok n → n.cid ∈ S) {fuelB : Nat}
    (hrec1 : ∀ s sn, unseenCount S sn + 1 ≤ fuelB → rec s sn ≠ none)
    (hrec2 : ∀ s sn out, rec s sn = some out → sn <:+ out.seen) :
    ∀ ls d seen, unseenCount S seen ≤ fuelB → dfsDescend rec o ls d seen ≠ none := by
  intro ls
  induction ls with
  | nil =>
    intro d seen _
    simp [dfsDescend]
  | cons l ls ih =>
    intro d seen hseen
    cases hd : o.dag l.cid with
    | error e =>
      cases herr : o.errFunc with
      | none =>
        simp only [dfsDescend, getNode_dag_error_noRec herr hd]
        simp
      | some ef =>
        simp only [dfsDescend, getNode_dag_error_rec herr hd]
        rcases hef : ef e with _ | e'
        · rcases h2 : dfsDescend rec o ls d seen with _ | out2
          · exact absurd h2 (ih d seen hseen)
          · simp [h2]
        · simp
    | ok n =>
      by_cases hm : n.cid ∈ seen
      · simp only [dfsDescend, getNode_ok_seen hsk hd hm]
        rcases h2 : dfsDescend rec o ls d seen with _ | out2
        · exact absurd h2 (ih d seen hseen)
        · simp [h2]
      · simp only [dfsDescend, getNode_ok_fresh hsk hd hm]
        have hmem : n.cid ∈ S := hS l.cid n hd
        have hdrop : unseenCount S (n.cid :: seen) + 1 ≤ unseenCount S seen :=
          unseenCount_drop hm hmem
        have hrecok : rec ⟨n, d + 1⟩ (n.cid :: seen) ≠ none := hrec1 _ _ (by omega)
        rcases h1 : rec ⟨n, d + 1⟩ (n.cid :: seen) with _ | out1
        · exact absurd h1 hrecok
        · have hsuf := hrec2 _ _ _ h1
          obtain ⟨evs2, seen2, res2⟩ := out1
          dsimp only at hsuf
          rcases res2 with _ | e
          · have hle : unseenCount S seen2 ≤ fuelB := by
              have := unseenCount_mono S hsuf
              omega
            rcases h2 : dfsDescend rec o ls d seen2 with _ | out2
            · exact absurd h2 (ih d seen2 hle)
            · simp [h1, h2]
          · simp [h1]

theorem dfsPreTraverse_total {ε : Type} {o : Options ε} {S : List Cid}
    (hsk : o.skipDuplicates = true) (hS : ∀ c n, o.dag c = Except.ok n → n.cid ∈ S) :
    ∀ fuel s seen, unseenCount S seen + 1 ≤ fuel → dfsPreTraverse o fuel s seen ≠ none := by
  intro fuel
  induction fuel with
  | zero =>
    intro s seen h
    exact absurd h (by omega)
  | succ fuel ih =>
    intro s seen hle
    simp only [dfsPreTraverse, callFunc]
    rcases hv : o.func s with _ | e
    · rcases h2 : dfsDescend (dfsPreTraverse o fuel) o s.node.links s.depth seen with _ | out2
      · refine absurd h2 (dfsDescend_total hsk hS (fun s sn h => ih s sn h)
          (fun s sn out h => dfsPreTraverse_suffix fuel s sn out h)
          s.node.links s.depth seen (by omega))
      · simp [h2]
    · simp

theorem dfsPostTraverse_total {ε : Type} {o : Options ε} {S : List Cid}
    (hsk : o.skipDuplicates = true) (hS : ∀ c n, o.dag c = Except.ok n → n.cid ∈ S) :
    ∀ fuel s seen, unseenCount S seen + 1 ≤ fuel → dfsPostTraverse o fuel s seen ≠ none := by
  intro fuel
  induction fuel with
  | zero =>
    intro s seen h
    exact absurd h (by omega)
  | succ fuel ih =>
    intro s seen hle
    simp only [dfsPostTraverse, callFunc]
    rcases h2 : dfsDescend (dfsPostTraverse o fuel) o s.node.links s.depth seen with _ | out1
    · refine absurd h2 (dfsDescend_total hsk hS (fun s sn h => ih s sn h)
        (fun s sn out h => dfsPostTraverse_suffix fuel s sn out h)
        s.node.links s.depth seen (by omega))
    · obtain ⟨evs2, seen2, res2⟩ := out1
      rcases res2 with _ | e <;> simp [h2]

theorem bfsEnqueue_measure {ε : Type} {o : Options ε} {S : List Cid}
    (hsk : o.skipDuplicates = true) (hS : ∀ c n, o.dag c = Except.ok n → n.cid ∈ S) :
    ∀ ls d seen evs seen' pushed, bfsEnqueue o d ls seen = (evs, seen', Except.ok pushed) →
      pushed.length + unseenCount S seen' ≤ unseenCount S seen := by
  intro ls
  induction ls with
  | nil =>
    intro d seen evs seen' pushed h
    cases h
    simp
  | cons l ls ih =>
    intro d seen evs seen' pushed
    cases hd : o.dag l.cid with
    | error e =>
      cases herr : o.errFunc with
      | none =>
        simp only [bfsEnqueue, getNode_dag_error_noRec herr hd]
        intro h; cases h
      | some ef =>
        simp only [bfsEnqueue, getNode_dag_error_rec herr hd]
        rcases hef : ef e with _ | e'
        · rcases he : bfsEnqueue o d ls seen with ⟨evs2, seen2, r2⟩
          simp only [he]
          rcases r2 with e2 | pushed2
          · intro h; cases h
          · intro h
            cases h
            exact ih d seen _ _ _ he
        · intro h; cases h
    | ok n =>
      by_cases hm : n.cid ∈ seen
      · simp only [bfsEnqueue, getNode_ok_seen hsk hd hm]
        rcases he : bfsEnqueue o d ls seen with ⟨evs2, seen2, r2⟩
        simp only [he]
        rcases r2 with e2 | pushed2
        · intro h; cases h
        · intro h
          cases h
          exact ih d seen _ _ _ he
      · simp only [bfsEnqueue, getNode_ok_fresh hsk hd hm]
        have hmem : n.cid ∈ S := hS l.cid n hd
        have hdrop : unseenCount S (n.cid :: seen) + 1 ≤ unseenCount S seen :=
          unseenCount_drop hm hmem
        rcases he : bfsEnqueue o d ls (n.cid :: seen) with ⟨evs2, seen2, r2⟩
        try simp only [he]
        rcases r2 with e2 | pushed2
        · intro h; cases h
        · intro h
          cases h
          have := ih d (n.cid :: seen) _ _ _ he
          simp only [List.length_cons]
          omega

theorem bfsLoop_total {ε : Type} {o : Options ε} {S : List Cid}
    (hsk : o.skipDuplicates = true) (hS : ∀ c n, o.dag c = Except.ok n → n.cid ∈ S) :
    ∀ fuel q seen, q.length + unseenCount S seen + 1 ≤ fuel →
      bfsLoop o fuel q seen ≠ none := by
  intro fuel
  induction fuel with
  | zero =>
    intro q seen h
    exact absurd h (by omega)
  | succ fuel ih =>
    intro q seen hle
    match q with
    | [] => simp [bfsLoop]
    | (none, d) :: rest => simp [bfsLoop]
    | (some n, d) :: rest =>
      simp only [bfsLoop, callFunc]
      rcases hv : o.func ⟨n, d⟩ with _ | e
      · rcases he : bfsEnqueue o d n.links seen with ⟨evs2, seen2, r⟩
        simp only [he]
        rcases r with e | pushed
        · simp
        · have hms := bfsEnqueue_measure hsk hS n.links d seen evs2 seen2 pushed he
          rcases h2 : bfsLoop o fuel (rest ++ pushed) seen2 with _ | out2
          · refine absurd h2 (ih (rest ++ pushed) seen2 ?_)
            simp only [List.length_append] at *
            simp only [List.length_cons] at hle
            omega
          · simp [h2]
      · simp

theorem bfsTraverse_total {ε : Type} {o : Options ε} {S : List Cid}
    (hsk : o.skipDuplicates = true) (hS : ∀ c n, o.dag c = Except.ok n → n.cid ∈ S)
    (fuel : Nat) (root : State) (seen : List Cid)
    (hle : unseenCount S seen + 2 ≤ fuel) : bfsTraverse o fuel root seen ≠ none := by
  unfold bfsTraverse
  by_cases hm : root.node.cid ∈ seen
  · rw [shouldSkip_mem hsk hm]
    simp only [Bool.true_or, if_pos rfl]
    simp
  · rw [shouldSkip_fresh hsk hm]
    simp only [Bool.false_or, Option.isSome_none]
    rw [if_neg (by decide)]
    have hmono := unseenCount_mono S (List.suffix_cons root.node.cid seen)
    rcases h2 : bfsLoop o fuel [(some root.node, root.depth)] (root.node.cid :: seen)
      with _ | out2
    · refine absurd h2 (bfsLoop_total hsk hS fuel [(some root.node, root.depth)]
        (root.node.cid :: seen) ?_)
      simp only [List.length_cons, List.length_nil]
      omega
    · simp [h2]

/-- C9: with duplicate suppression enabled, a fuel allowance of
`S.length + 2` — where `S` lists the cids of every node the retrieval
capability can return — always suffices: `Traverse` completes (it never
exhausts the fuel) on every graph with finitely many reachable nodes,
cyclic graphs included, in every order.  Each descent follows a fresh
insertion into the seen set, so the recursion depth and the number of
BFS enqueues are bounded by the number of distinct cids. -/
theorem c9_suppression_terminates {ε : Type} (o : Options ε) (root : Node) (S : List Cid)
    (hsk : o.skipDuplicates = true)
    (hS : ∀ c n, o.dag c = Except.ok n → n.cid ∈ S) :
    Traverse root o (S.length + 2) ≠ none := by
  have hu : unseenCount S [] ≤ S.length := unseenCount_le S []
  unfold Traverse
  split_ifs
  · exact dfsPreTraverse_total hsk hS (S.length + 2) ⟨root, 0⟩ [] (by omega)
  · exact dfsPostTraverse_total hsk hS (S.length + 2) ⟨root, 0⟩ [] (by omega)
  · exact bfsTraverse_total hsk hS (S.length + 2) ⟨root, 0⟩ [] (by omega)
  · exact dfsPreTraverse_total hsk hS (S.length + 2) ⟨root, 0⟩ [] (by omega)

/-- The cyclic graph again, with a retrieval capability that fails on
every cid outside `{R, A}` (so its successful results are confined to a
finite cid universe). -/
def dagCycFin : Cid → Except String Node := fun c =>
  if c = "A" then Except.ok (mkNode "A" ["R"])
  else if c = "R" then Except.ok (mkNode "R" ["A"])
  else Except.error "notfound"

def optsCycFin (ord : Order) : Options String :=
  ⟨dagCycFin, ord, fun _ => none, none, true⟩

/-- Witness for C9: on the two-node cycle, fuel 4 completes the BFS
traversal. -/
theorem c9_suppression_terminates_witness :
    (optsCycFin BFS).skipDuplicates = true ∧
      (∀ c n, (optsCycFin BFS).dag c = Except.ok n → n.cid ∈ ["R", "A"]) ∧
      Traverse rootCyc (optsCycFin BFS) (["R", "A"].length + 2) ≠ none := by
  have hS : ∀ c n, (optsCycFin BFS).dag c = Except.ok n → n.cid ∈ ["R", "A"] := by
    intro c n h
    revert h
    show dagCycFin c = Except.ok n → n.cid ∈ ["R", "A"]
    unfold dagCycFin
    split_ifs with h1 h2 <;> intro h
    · cases h; decide
    · cases h; decide
    · cases h
  exact ⟨rfl, hS, c9_suppression_terminates (optsCycFin BFS) rootCyc ["R", "A"] rfl hS⟩

/-! ### C3: order guarantees without duplicate suppression -/

/-- Resolve and list the subtree visit sequences of a row of links, in
link order (the reference listing the engine's `dfsDescend` must
produce). -/
def seqChildren {ε : Type} (dag : Cid → Except ε Node)
    (recL : Node → Option (List State)) : List Link → Option (List State)
  | [] => some []
  | l :: ls =>
    match dag l.cid with
    | Except.error _ => none
    | Except.ok n =>
      match recL n, seqChildren dag recL ls with
      | some a, some b => some (a ++ b)
      | _, _ => none

/-- The pre-order listing of the graph under `dag` from a state: the
state itself, then the listings of its children in link order. -/
def preList {ε : Type} (dag : Cid → Except ε Node) : Nat → State → Option (List State)
  | 0, _ => none
  | fuel + 1, s =>
    match seqChildren dag (fun n => preList dag fuel ⟨n, s.depth + 1⟩) s.node.links with
    | none => none
    | some ts => some (s :: ts)

/-- The post-order listing: children first, the state last. -/
def postList {ε : Type} (dag : Cid → Except ε Node) : Nat → State → Option (List State)
  | 0, _ => none
  | fuel + 1, s =>
    match seqChildren dag (fun n => postList dag fuel ⟨n, s.depth + 1⟩) s.node.links with
    | none => none
    | some ts => some (ts ++ [s])

theorem dfsDescend_seqChildren {ε : Type} {o : Options ε}
    (hsk : o.skipDuplicates = false) (herr : o.errFunc = none)
    {rec : State → List Cid → Option (Out ε)} {recSpec : State → Option (List State)}
    {d : Nat}
    (hrec : ∀ n sn out, rec ⟨n, d + 1⟩ sn = some out → out.res = none →
      out.seen = sn ∧ recSpec ⟨n, d + 1⟩ = some (visitStates out.evs)) :
    ∀ ls seen out, dfsDescend rec o ls d seen = some out → out.res = none →
      out.seen = seen ∧
        seqChildren o.dag (fun n => recSpec ⟨n, d + 1⟩) ls = some (visitStates out.evs) := by
  intro ls
  induction ls with
  | nil =>
    intro seen out h hres
    cases h
    exact ⟨rfl, rfl⟩
  | cons l ls ih =>
    intro seen out
    cases hd : o.dag l.cid with
    | error e =>
      simp only [dfsDescend, getNode_dag_error_noRec herr hd]
      intro h hres
      cases h
      cases hres
    | ok n =>
      simp only [dfsDescend, getNode_ok_noskip hsk hd]
      rcases h1 : rec ⟨n, d + 1⟩ seen with _ | out1
      · intro h; cases h
      · obtain ⟨evs1, seen1, res1⟩ := out1
        rcases res1 with _ | e
        · rcases h2 : dfsDescend rec o ls d seen1 with _ | out2
          · simp only [h1, h2]
            intro h; cases h
          · simp only [h1, h2]
            intro h hres
            cases h
            try dsimp only at hres
            obtain ⟨hseen1, hspec1⟩ := hrec n seen ⟨evs1, seen1, none⟩ h1 rfl
            try dsimp only at hseen1 hspec1
            obtain ⟨hseen2, hspec2⟩ := ih seen1 out2 h2 hres
            subst hseen1
            refine ⟨hseen2, ?_⟩
            simp only [seqChildren, hd, hspec1, hspec2]
            try dsimp only
            rw [visitStates_append, visitStates_append]
            rfl
        · simp only [h1]
          intro h hres
          cases h
          cases hres
    
theorem dfsPreTraverse_preList {ε : Type} {o : Options ε}
    (hsk : o.skipDuplicates = false) (herr : o.errFunc = none) :
    ∀ fuel s seen out, dfsPreTraverse o fuel s seen = some out → out.res = none →
      out.seen = seen ∧ preList o.dag fuel s = some (visitStates out.evs) := by
  intro fuel
  induction fuel with
  | zero => intro s seen out h; cases h
  | succ fuel ih =>
    intro s seen out
    simp only [dfsPreTraverse, callFunc]
    rcases hv : o.func s with _ | e
    · rcases h2 : dfsDescend (dfsPreTraverse o fuel) o s.node.links s.depth seen with _ | out2
      · simp only [h2]
        intro h; cases h
      · simp only [h2]
        intro h hres
        cases h
        try dsimp only at hres
        obtain ⟨hseen, hspec⟩ :=
          dfsDescend_seqChildren hsk herr
            (fun n sn out h hres => ih ⟨n, s.depth + 1⟩ sn out h hres)
            s.node.links seen out2 h2 hres
        refine ⟨hseen, ?_⟩
        simp only [preList, hspec]
        rw [visitStates_append]
        rfl
    · intro h hres
      cases h
      cases hres

theorem dfsPostTraverse_postList {ε : Type} {o : Options ε}
    (hsk : o.skipDuplicates = false) (herr : o.errFunc = none) :
    ∀ fuel s seen out, dfsPostTraverse o fuel s seen = some out → out.res = none →
      out.seen = seen ∧ postList o.dag fuel s = some (visitStates out.evs) := by
  intro fuel
  induction fuel with
  | zero => intro s seen out h; cases h
  | succ fuel ih =>
    intro s seen out
    simp only [dfsPostTraverse, callFunc]
    rcases h2 : dfsDescend (dfsPostTraverse o fuel) o s.node.links s.depth seen with _ | out2
    · simp only [h2]
      intro h; cases h
    · obtain ⟨evs2, seen2, res2⟩ := out2
      rcases res2 with _ | e
      · simp only [h2]
        intro h hres
        cases h
        try dsimp only at hres
        rcases hv : o.func s with _ | e
        · obtain ⟨hseen, hspec⟩ :=
            dfsDescend_seqChildren hsk herr
              (fun n sn out h hres => ih ⟨n, s.depth + 1⟩ sn out h hres)
              s.node.links seen ⟨evs2, seen2, none⟩ h2 rfl
          try dsimp only at hseen hspec
          refine ⟨hseen, ?_⟩
          simp only [postList, hspec]
          rw [visitStates_append]
          rfl
        · rw [hv] at hres
          cases hres
      · simp only [h2]
        intro h hres
        cases h
        cases hres

/-- Resolve a row of links into child states at depth `d`. -/
def childrenOf {ε : Type} (dag : Cid → Except ε Node) : List Link → Nat → Option (List State)
  | [], _ => some []
  | l :: ls, d =>
    match dag l.cid with
    | Except.error _ => none
    | Except.ok n =>
      match childrenOf dag ls d with
      | none => none
      | some rest => some (⟨n, d⟩ :: rest)

/-- The next BFS level: all children of a level's states, in order. -/
def levelChildren {ε : Type} (dag : Cid → Except ε Node) : List State → Option (List State)
  | [] => some []
  | st :: rest =>
    match childrenOf dag st.node.links (st.depth + 1), levelChildren dag rest with
    | some a, some b => some (a ++ b)
    | _, _ => none

/-- The concatenation of the BFS levels, level by level. -/
def levelsFlat {ε : Type} (dag : Cid → Except ε Node) : Nat → List State → Option (List State)
  | 0, lv =>
    match lv with
    | [] => some []
    | _ => none
  | fuel + 1, lv =>
    match lv with
    | [] => some []
    | _ =>
      match levelChildren dag lv with
      | none => none
      | some nl =>
        match levelsFlat dag fuel nl with
        | none => none
        | some rest => some (lv ++ rest)

/-- The reference queue-driven breadth-first listing. -/
def bfsQ {ε : Type} (dag : Cid → Except ε Node) : Nat → List State → Option (List State)
  | 0, _ => none
  | _ + 1, [] => some []
  | fuel + 1, st :: rest =>
    match childrenOf dag st.node.links (st.depth + 1) with
    | none => none
    | some ch =>
      match bfsQ dag fuel (rest ++ ch) with
      | none => none
      | some ts => some (st :: ts)

/-- The queue image of a list of states. -/
def toQ (A : List State) : List (Option Node × Nat) :=
  A.map fun st => (some st.node, st.depth)

theorem bfsEnqueue_childrenOf {ε : Type} {o : Options ε}
    (hsk : o.skipDuplicates = false) (herr : o.errFunc = none) :
    ∀ ls d seen evs seen' pushed,
      bfsEnqueue o d ls seen = (evs, seen', Except.ok pushed) →
      seen' = seen ∧ visitStates evs = [] ∧
        ∃ ch, childrenOf o.dag ls (d + 1) = some ch ∧ pushed = toQ ch := by
  intro ls
  induction ls with
  | nil =>
    intro d seen evs seen' pushed h
    cases h
    exact ⟨rfl, rfl, [], rfl, rfl⟩
  | cons l ls ih =>
    intro d seen evs seen' pushed
    cases hd : o.dag l.cid with
    | error e =>
      simp only [bfsEnqueue, getNode_dag_error_noRec herr hd]
      intro h; cases h
    | ok n =>
      simp only [bfsEnqueue, getNode_ok_noskip hsk hd]
      rcases he : bfsEnqueue o d ls seen with ⟨evs2, seen2, r2⟩
      try simp only [he]
      rcases r2 with e2 | pushed2
      · intro h; cases h
      · intro h
        cases h
        obtain ⟨hseen, hvs, ch, hch, hpush⟩ := ih d seen _ _ _ he
        subst hseen
        refine ⟨rfl, by rw [visitStates_append, hvs]; rfl, ⟨n, d + 1⟩ :: ch, ?_, ?_⟩
        · rw [childrenOf, hd, hch]
        · rw [hpush]; rfl

theorem bfsLoop_bfsQ {ε : Type} {o : Options ε}
    (hsk : o.skipDuplicates = false) (herr : o.errFunc = none) :
    ∀ fuel A seen out, bfsLoop o fuel (toQ A) seen = some out → out.res = none →
      out.seen = seen ∧ bfsQ o.dag fuel A = some (visitStates out.evs) := by
  intro fuel
  induction fuel with
  | zero => intro A seen out h; cases h
  | succ fuel ih =>
    intro A seen out
    match A with
    | [] =>
      intro h _
      cases h
      exact ⟨rfl, rfl⟩
    | st :: rest =>
      show bfsLoop o (fuel + 1) ((some st.node, st.depth) :: toQ rest) seen = some out → _
      simp only [bfsLoop, callFunc]
      rcases hv : o.func ⟨st.node, st.depth⟩ with _ | e
      · rcases he : bfsEnqueue o st.depth st.node.links seen with ⟨evs2, seen2, r⟩
        try simp only [he]
        rcases r with e | pushed
        · intro h hres
          cases h
          cases hres
        · obtain ⟨hseen2, hvs2, ch, hch, hpush⟩ :=
            bfsEnqueue_childrenOf hsk herr st.node.links st.depth seen evs2 seen2 pushed he
          subst hpush
          rcases h2 : bfsLoop o fuel (toQ rest ++ toQ ch) seen2 with _ | out2
          · simp only [h2]
            intro h; cases h
          · simp only [h2]
            intro h hres
            cases h
            try dsimp only at hres
            have htq : toQ rest ++ toQ ch = toQ (rest ++ ch) := by
              simp [toQ]
            rw [htq] at h2
            obtain ⟨hseen3, hspec⟩ := ih (rest ++ ch) seen2 out2 h2 hres
            refine ⟨hseen3.trans hseen2, ?_⟩
            simp only [bfsQ, hch, hspec]
            try dsimp only
            rw [visitStates_append, visitStates_append, hvs2]
            rfl
      · intro h hres
        cases h
        cases hres

theorem bfsTraverse_bfsQ {ε : Type} {o : Options ε}
    (hsk : o.skipDuplicates = false) (herr : o.errFunc = none) :
    ∀ fuel root seen out, bfsTraverse o fuel root seen = some out → out.res = none →
      out.seen = seen ∧ bfsQ o.dag fuel [root] = some (visitStates out.evs) := by
  intro fuel root seen out
  unfold bfsTraverse
  rw [shouldSkip_off seen root.node hsk]
  simp only [Bool.false_or, Option.isSome_none]
  rw [if_neg (by decide)]
  rcases h2 : bfsLoop o fuel [(some root.node, root.depth)] seen with _ | out2
  · simp only [h2]
    intro h; cases h
  · simp only [h2]
    intro h hres
    cases h
    try dsimp only at hres
    have h3 : bfsLoop o fuel (toQ [root]) seen = some out2 := h2
    have := bfsLoop_bfsQ hsk herr fuel [root] seen out2 h3 hres
    simpa using this

theorem bfsQ_shift {ε : Type} (dag : Cid → Except ε Node) :
    ∀ (A : List State) (fuel : Nat) (B out : List State),
      bfsQ dag fuel (A ++ B) = some out →
      ∃ chA, levelChildren dag A = some chA ∧
        ∃ f' rest, bfsQ dag f' (B ++ chA) = some rest ∧ out = A ++ rest ∧
          f' + A.length ≤ fuel := by
  intro A
  induction A with
  | nil =>
    intro fuel B out h
    refine ⟨[], rfl, fuel, out, ?_, rfl, by simp⟩
    rw [List.append_nil]
    exact h
  | cons st A' ih =>
    intro fuel B out
    match fuel with
    | 0 => intro h; cases h
    | fuel + 1 =>
      show (match childrenOf dag st.node.links (st.depth + 1) with
        | none => none
        | some ch =>
          match bfsQ dag fuel ((A' ++ B) ++ ch) with
          | none => none
          | some ts => some (st :: ts)) = some out → _
      rcases hch : childrenOf dag st.node.links (st.depth + 1) with _ | ch
      · intro h; cases h
      · rcases h2 : bfsQ dag fuel ((A' ++ B) ++ ch) with _ | ts
        · try simp only [h2]
          intro h; cases h
        · try simp only [h2]
          intro h
          cases h
          have h2' : bfsQ dag fuel (A' ++ (B ++ ch)) = some ts := by
            rw [← List.append_assoc]
            exact h2
          obtain ⟨chA', hchA', f', rest, hrest, hts, hfuel⟩ := ih fuel (B ++ ch) ts h2'
          refine ⟨ch ++ chA', ?_, f', rest, ?_, ?_, ?_⟩
          · rw [levelChildren, hch, hchA']
          · rw [List.append_assoc] at hrest
            exact hrest
          · rw [hts, List.cons_append]
          · simp only [List.length_cons]
            omega

theorem bfsQ_levelsFlat {ε : Type} (dag : Cid → Except ε Node) :
    ∀ (fuel : Nat) (L out : List State), bfsQ dag fuel L = some out →
      ∃ fl, levelsFlat dag fl L = some out := by
  intro fuel
  induction fuel using Nat.strong_induction_on with
  | _ fuel ih =>
    intro L out h
    match L with
    | [] =>
      match fuel, h with
      | fuel + 1, h =>
        cases h
        exact ⟨0, rfl⟩
    | st :: L' =>
      obtain ⟨chL, hchL, f', rest, hrest, hout, hfuel⟩ :=
        bfsQ_shift dag (st :: L') fuel [] out (by rw [List.append_nil]; exact h)
      have hf' : f' < fuel := by
        simp only [List.length_cons] at hfuel
        omega
      rw [List.nil_append] at hrest
      obtain ⟨fl, hfl⟩ := ih f' hf' chL rest hrest
      refine ⟨fl + 1, ?_⟩
      rw [hout]
      show (match (st :: L' : List State) with
        | [] => some []
        | _ =>
          match levelChildren dag (st :: L') with
          | none => none
          | some nl =>
            match levelsFlat dag fl nl with
            | none => none
            | some rest => some ((st :: L') ++ rest)) = some ((st :: L') ++ rest)
      simp only [hchL, hfl]

/-- Concrete outcome of pre-order DFS on the example graph. -/
def outPreRABC : Out String :=
  ⟨[Event.visit ⟨rootRABC, 0⟩, Event.fetch "A", Event.visit ⟨mkNode "A" ["C"], 1⟩,
    Event.fetch "C", Event.visit ⟨mkNode "C" [], 2⟩, Event.fetch "B",
    Event.visit ⟨mkNode "B" [], 1⟩], [], none⟩

/-- Concrete outcome of post-order DFS on the example graph. -/
def outPostRABC : Out String :=
  ⟨[Event.fetch "A", Event.fetch "C", Event.visit ⟨mkNode "C" [], 2⟩,
    Event.visit ⟨mkNode "A" ["C"], 1⟩, Event.fetch "B", Event.visit ⟨mkNode "B" [], 1⟩,
    Event.visit ⟨rootRABC, 0⟩], [], none⟩

/-- C3: without duplicate suppression (and without a recovery function
masking fetch failures), a completed traversal's visit sequence is the
canonical listing of its order.  Pre-order DFS produces exactly the
pre-order listing (`preList`: each state strictly before its whole
subtree listing, children expanded in link order); post-order DFS
produces exactly the post-order listing (`postList`: each state
strictly after its subtree listings); BFS produces exactly the
concatenation of the levels (`levelsFlat`: level d — the endpoints of
the length-d link paths from the root — listed in full before level
d+1, so any node all of whose paths from the root are longer than d is
visited after every node having a path of length at most d).  On the
example graph `R → {A, B}`, `A → C`, the visit sequences are
`R A C B`, `C A B R`, and `R A B C`. -/
theorem c3_traversal_orders :
    (∀ (ε : Type) (o : Options ε) (fuel : Nat) (s : State) (seen : List Cid) (out : Out ε),
      o.skipDuplicates = false → o.errFunc = none →
      dfsPreTraverse o fuel s seen = some out → out.res = none →
      preList o.dag fuel s = some (visitStates out.evs)) ∧
    (∀ (ε : Type) (o : Options ε) (fuel : Nat) (s : State) (seen : List Cid) (out : Out ε),
      o.skipDuplicates = false → o.errFunc = none →
      dfsPostTraverse o fuel s seen = some out → out.res = none →
      postList o.dag fuel s = some (visitStates out.evs)) ∧
    (∀ (ε : Type) (o : Options ε) (fuel : Nat) (root : State) (seen : List Cid)
        (out : Out ε),
      o.skipDuplicates = false → o.errFunc = none →
      bfsTraverse o fuel root seen = some out → out.res = none →
      ∃ fl, levelsFlat o.dag fl [root] = some (visitStates out.evs)) ∧
    (Traverse rootRABC (optsRABC DFSPre false) 10 = some outPreRABC ∧
      visitCids outPreRABC.evs = ["R", "A", "C", "B"]) ∧
    (Traverse rootRABC (optsRABC DFSPost false) 10 = some outPostRABC ∧
      visitCids outPostRABC.evs = ["C", "A", "B", "R"]) ∧
    (Traverse rootRABC (optsRABC BFS false) 10 = some outBfsRABC ∧
      visitCids outBfsRABC.evs = ["R", "A", "B", "C"]) := by
  refine ⟨fun ε o fuel s seen out hsk herr h hres =>
      (dfsPreTraverse_preList hsk herr fuel s seen out h hres).2,
    fun ε o fuel s seen out hsk herr h hres =>
      (dfsPostTraverse_postList hsk herr fuel s seen out h hres).2,
    fun ε o fuel root seen out hsk herr h hres =>
      bfsQ_levelsFlat o.dag fuel [root] (visitStates out.evs)
        (bfsTraverse_bfsQ hsk herr fuel root seen out h hres).2,
    ⟨by rfl, by rfl⟩, ⟨by rfl, by rfl⟩, ⟨by rfl, by rfl⟩⟩

/-- Witness for C3's universally quantified clauses, instantiated on the
example graph in pre-order. -/
theorem c3_traversal_orders_witness :
    (optsRABC DFSPre false).skipDuplicates = false ∧
      (optsRABC DFSPre false).errFunc = none ∧
      dfsPreTraverse (optsRABC DFSPre false) 10 ⟨rootRABC, 0⟩ [] = some outPreRABC ∧
      outPreRABC.res = none ∧
      preList (optsRABC DFSPre false).dag 10 ⟨rootRABC, 0⟩ =
        some (visitStates outPreRABC.evs) :=
  ⟨rfl, rfl, by rfl, rfl,
    c3_traversal_orders.1 String (optsRABC DFSPre false) 10 ⟨rootRABC, 0⟩ [] outPreRABC
      rfl rfl (by rfl) rfl⟩
